import Mathlib

/-!
Verification development for the harmony staged-stream-sync core: the
snapshot state download manager (FullStateDownloadManager and its helpers)
and the block verify-and-insert path of downloader.go.

Modelling conventions of the shallow embedding:
- 256-bit hashes are natural numbers; arithmetic that the Go code performs
  on big.Int values truncated through common.BigToHash is taken modulo
  2 ^ 256 explicitly.
- Byte strings ([]byte, string) are lists of naturals, each below 256.
- Go maps keyed by uint64 ids are association lists in insertion order;
  Go map iteration visits that order (the Go order is unspecified, and no
  theorem below depends on a particular order).
- Go nil pointers are Option values; a function whose execution can reach
  a nil-pointer dereference returns Option, with none denoting the fault.
- External collaborators (database batches, the trie scheduler, the
  consensus engine) appear as explicit parameters or as oracle records.
-/

set_option maxRecDepth 4000

namespace StagedStreamSync

/-! ### Request sizing constants (source constants block)

Direct translations of the Go constant declarations.  Go untyped-integer
constant arithmetic truncates at each division, so the expression
maxRequestSize / (24 * 1024) * 4 divides first and multiplies second. -/

def minRequestSize : Nat := 64 * 1024

def maxRequestSize : Nat := 512 * 1024

/-- maxCodeRequestCount as written in the source:
maxRequestSize / (24 * 1024) * 4, with Go left-to-right evaluation. -/
def maxCodeRequestCount : Nat := maxRequestSize / (24 * 1024) * 4

/-- maxTrieRequestCount as written in the source: maxRequestSize / 512. -/
def maxTrieRequestCount : Nat := maxRequestSize / 512

/-- C9 counterexample: the spec fixes maxCodeRequestCount = 85, but the Go
constant expression divides 512 KiB by 24 KiB first (truncating to 21) and
multiplies by 4 afterwards, giving 84. -/
theorem c9_code_request_count_counterexample :
    ¬ (maxCodeRequestCount = 85 ∧ maxTrieRequestCount = 1024) := by
  decide

/-- C9 amended: the compile-time constants are maxCodeRequestCount = 84
(because the source divides before multiplying) and
maxTrieRequestCount = 1024. -/
theorem c9_request_count_values :
    maxCodeRequestCount = 84 ∧ maxTrieRequestCount = 1024 := by
  decide

/-! ### Hash space and the fresh account partition (loadSyncStatus)

The fresh-sync branch of loadSyncStatus partitions the account hash space
into accountConcurrency intervals: step = 2 ^ 256 / accountConcurrency - 1,
next starts at zero, each iteration emits the interval (next, last) with
last = next + step (truncated through common.BigToHash, hence mod 2 ^ 256),
forces last = MaxHash on the final iteration, and continues with
next = last + 1. -/

def hashSpace : Nat := 2 ^ 256

/-- MaxHash, the all-ones 256-bit hash. -/
def maxHashN : Nat := hashSpace - 1

def accountConcurrency : Nat := 16

def storageConcurrency : Nat := 16

/-- The step of the fresh partition loop in loadSyncStatus. -/
def freshStep : Nat := hashSpace / accountConcurrency - 1

/-- The partition loop of loadSyncStatus, counting down the remaining
iterations; the iteration with k = 0 is the final one, whose last hash is
forced to MaxHash. -/
def freshIntervalsGo : Nat → Nat → List (Nat × Nat)
  | 0, _ => []
  | k + 1, next =>
    let last := if k = 0 then maxHashN else (next + freshStep) % hashSpace
    (next, last) :: freshIntervalsGo k ((last + 1) % hashSpace)

/-- The (Next, Last) intervals of the account tasks created by a fresh
loadSyncStatus. -/
def freshAccountIntervals : List (Nat × Nat) :=
  freshIntervalsGo accountConcurrency 0

/-- C4: a fresh loadSyncStatus creates exactly accountConcurrency = 16
account tasks tiling the hash space: the first Next is 0, the final Last is
MaxHash, each successive Next is the previous Last plus one, and every
non-final interval has length freshStep = 2 ^ 256 / 16 - 1. -/
theorem c4_fresh_partition_tiles :
    freshAccountIntervals.length = accountConcurrency ∧
    accountConcurrency = 16 ∧
    (freshAccountIntervals.getD 0 (1, 1)).1 = 0 ∧
    (freshAccountIntervals.getD 15 (1, 1)).2 = maxHashN ∧
    (∀ i ∈ List.range 15,
      (freshAccountIntervals.getD (i + 1) (1, 1)).1 =
        (freshAccountIntervals.getD i (1, 1)).2 + 1) ∧
    (∀ i ∈ List.range 15,
      (freshAccountIntervals.getD i (1, 1)).2 -
        (freshAccountIntervals.getD i (1, 1)).1 = freshStep) ∧
    freshStep = 2 ^ 256 / 16 - 1 := by
  decide

/-! ### The overflow trim of processAccountResponse

processAccountResponse scans the returned hashes against task.Last: a hash
equal to Last clears the continuation flag and is kept; the first hash
strictly greater than Last truncates both the hashes and the accounts at
its index and clears the continuation flag. -/

/-- The trim loop of processAccountResponse.  hashes0 and accounts0 are the
full slices the Go code indexes when truncating; the recursion walks the
remaining suffix carrying the current index and continuation flag. -/
def trimAccountRespGo {α : Type} (last : Nat) (hashes0 : List Nat) (accounts0 : List α) :
    Nat → List Nat → Bool → List Nat × List α × Bool
  | _, [], cont => (hashes0, accounts0, cont)
  | i, h :: rest, cont =>
    if h = last then trimAccountRespGo last hashes0 accounts0 (i + 1) rest false
    else if h > last then (hashes0.take i, accounts0.take i, false)
    else trimAccountRespGo last hashes0 accounts0 (i + 1) rest cont

/-- Entry point of the trim, as invoked by processAccountResponse. -/
def trimAccountResp {α : Type} (last : Nat) (hashes : List Nat) (accounts : List α)
    (cont : Bool) : List Nat × List α × Bool :=
  trimAccountRespGo last hashes accounts 0 hashes cont

/-- C5 counterexample: with task.Last = 5 a returned hash equal to 5 (hence
greater than or equal to task.Last) survives the trim, so not every hash
greater than or equal to task.Last is removed; the continuation flag is
cleared nonetheless. -/
theorem c5_trim_counterexample :
    5 ∈ (trimAccountResp 5 [5] [0] true).1 ∧ 5 ≥ 5 ∧
      (trimAccountResp 5 [5] [0] true).2.2 = false := by
  decide

theorem takeWhile_all_of_pos {p : Nat → Bool} :
    ∀ l : List Nat, (∀ x ∈ l, p x = true) → l.takeWhile p = l := by
  intro l
  induction l with
  | nil => intro _; rfl
  | cons a t ih =>
    intro h
    have ha := h a (List.mem_cons_self a t)
    simp [List.takeWhile, ha, ih fun x hx => h x (List.mem_cons_of_mem a hx)]

theorem takeWhile_append_stop {p : Nat → Bool} :
    ∀ (pre : List Nat) (h : Nat) (suf : List Nat),
      (∀ x ∈ pre, p x = true) → p h = false →
      (pre ++ h :: suf).takeWhile p = pre := by
  intro pre
  induction pre with
  | nil => intro h suf _ hh; simp [List.takeWhile, hh]
  | cons a t ih =>
    intro h suf hall hh
    have ha := hall a (List.mem_cons_self a t)
    simp only [List.cons_append, List.takeWhile, ha, List.cons.injEq, true_and]
    exact ih h suf (fun x hx => hall x (List.mem_cons_of_mem a hx)) hh

/-- Trim loop, no-overflow case: when every remaining hash is at most
task.Last, the loop returns the full slices and clears the continuation
flag exactly when some remaining hash equals task.Last. -/
theorem trimGo_no_overflow {α : Type} (last : Nat) (hashes0 : List Nat) (accounts0 : List α) :
    ∀ (suf : List Nat) (i : Nat) (c : Bool), (∀ h ∈ suf, h ≤ last) →
      trimAccountRespGo last hashes0 accounts0 i suf c =
        (hashes0, accounts0, c && !(suf.contains last)) := by
  intro suf
  induction suf with
  | nil => intro i c _; simp [trimAccountRespGo]
  | cons h rest ih =>
    intro i c hle
    have hh := hle h (List.mem_cons_self h rest)
    by_cases heq : h = last
    · subst heq
      simp only [trimAccountRespGo, if_pos rfl]
      rw [ih (i + 1) false (fun x hx => hle x (List.mem_cons_of_mem h hx))]
      simp [List.contains_cons]
    · have hlt : ¬ h > last := by omega
      simp only [trimAccountRespGo, if_neg heq, if_neg hlt]
      rw [ih (i + 1) c (fun x hx => hle x (List.mem_cons_of_mem h hx))]
      have hd : decide (last = h) = false := decide_eq_false fun hx => heq hx.symm
      simp [List.contains_cons, hd]

/-- Trim loop, overflow case: if some remaining hash exceeds task.Last and
all hashes before the current index are at most task.Last, the loop
truncates both slices at the first overflowing index and clears the
continuation flag. -/
theorem trimGo_overflow {α : Type} (last : Nat) (accounts0 : List α) :
    ∀ (suf pre : List Nat) (c : Bool), (∃ x ∈ suf, x > last) →
      (∀ h ∈ pre, h ≤ last) →
      trimAccountRespGo last (pre ++ suf) accounts0 pre.length suf c =
        ((pre ++ suf).takeWhile (fun h => h ≤ last),
          accounts0.take ((pre ++ suf).takeWhile (fun h => h ≤ last)).length, false) := by
  intro suf
  induction suf with
  | nil =>
    intro pre c hex _
    rcases hex with ⟨x, hx, _⟩
    exact absurd hx (List.not_mem_nil x)
  | cons h rest ih =>
    intro pre c hex hpre
    by_cases hgt : h > last
    · have hstop : (pre ++ h :: rest).takeWhile (fun x => x ≤ last) = pre := by
        apply takeWhile_append_stop
        · intro x hx; simp [hpre x hx]
        · simp; omega
      have hne : ¬ h = last := by omega
      simp only [trimAccountRespGo, if_neg hne, if_pos hgt, hstop]
      rw [List.take_left]
    · have hle : h ≤ last := by omega
      have hex' : ∃ x ∈ rest, x > last := by
        rcases hex with ⟨x, hx, hxgt⟩
        rcases List.mem_cons.mp hx with hx1 | hx2
        · omega
        · exact ⟨x, hx2, hxgt⟩
      have hpre' : ∀ x ∈ pre ++ [h], x ≤ last := by
        intro x hx
        rcases List.mem_append.mp hx with hx1 | hx2
        · exact hpre x hx1
        · rcases List.mem_singleton.mp hx2 with rfl; exact hle
      have hassoc : pre ++ h :: rest = (pre ++ [h]) ++ rest := by simp
      have hlen : (pre ++ [h]).length = pre.length + 1 := by simp
      by_cases heq : h = last
      · subst heq
        simp only [trimAccountRespGo, if_pos rfl]
        have := ih (pre ++ [h]) false hex' hpre'
        rw [hlen] at this
        rw [hassoc]
        exact this
      · simp only [trimAccountRespGo, if_neg heq, if_neg hgt]
        have := ih (pre ++ [h]) c hex' hpre'
        rw [hlen] at this
        rw [hassoc]
        exact this

/-- C5 amended: the trim removes exactly the hashes strictly greater than
task.Last (the response is cut at the first such hash, and a hash equal to
task.Last is kept); the accounts are cut in parallel; the continuation flag
is cleared whenever some returned hash is greater than or equal to
task.Last, and is left unchanged when every hash is strictly below it. -/
theorem c5_trim_amended {α : Type} (last : Nat) (hashes : List Nat) (accounts : List α)
    (cont : Bool) (hlen : accounts.length = hashes.length) :
    (trimAccountResp last hashes accounts cont).1 =
        hashes.takeWhile (fun h => h ≤ last) ∧
    (trimAccountResp last hashes accounts cont).2.1 =
        accounts.take (hashes.takeWhile (fun h => h ≤ last)).length ∧
    ((∃ h ∈ hashes, h ≥ last) → (trimAccountResp last hashes accounts cont).2.2 = false) ∧
    ((∀ h ∈ hashes, h < last) → (trimAccountResp last hashes accounts cont).2.2 = cont) := by
  by_cases hex : ∃ x ∈ hashes, x > last
  · have h0 := trimGo_overflow last accounts hashes [] cont hex
      (by intro h hh; cases hh)
    unfold trimAccountResp
    simp only [List.nil_append, List.length_nil] at h0
    rw [h0]
    refine ⟨rfl, rfl, fun _ => rfl, fun hall => ?_⟩
    rcases hex with ⟨x, hx, hxgt⟩
    have := hall x hx
    omega
  · have hle : ∀ x ∈ hashes, x ≤ last := by
      intro x hx
      by_contra hc
      exact hex ⟨x, hx, by omega⟩
    have h0 := trimGo_no_overflow last hashes accounts hashes 0 cont hle
    unfold trimAccountResp
    rw [h0]
    have htw : hashes.takeWhile (fun x => x ≤ last) = hashes :=
      takeWhile_all_of_pos hashes (by intro x hx; simp [hle x hx])
    refine ⟨htw.symm, ?_, ?_, ?_⟩
    · rw [htw, ← hlen, List.take_length]
    · rintro ⟨x, hx, hxge⟩
      have hxeq : x = last := by have := hle x hx; omega
      have hmem : last ∈ hashes := hxeq ▸ hx
      have hc : hashes.contains last = true := List.elem_eq_true_of_mem hmem
      show (cont && !hashes.contains last) = false
      rw [hc]
      simp
    · intro hall
      have hnm : last ∉ hashes := fun hm => by have := hall last hm; omega
      have hc : hashes.contains last = false := by
        cases hx : hashes.contains last
        · rfl
        · exact absurd (List.mem_of_elem_eq_true hx) hnm
      show (cont && !hashes.contains last) = cont
      rw [hc]
      simp

/-- C5 witness: the amended trim theorem applied at task.Last = 5 with
hashes [1, 6] and accounts [10, 20]. -/
theorem c5_trim_amended_witness :
    (trimAccountResp 5 [1, 6] [10, 20] true).1 = [1] ∧
      (trimAccountResp 5 [1, 6] [10, 20] true).2.2 = false :=
  ⟨by
    have h := (c5_trim_amended 5 [1, 6] [(10 : Nat), 20] true (by decide)).1
    simpa using h,
   (c5_trim_amended 5 [1, 6] [(10 : Nat), 20] true (by decide)).2.2.1
     ⟨6, by decide, by decide⟩⟩

/-! ### The task registry

Typed containers mirroring the tasks struct: four maps keyed by uint64 ids
(account tasks, storage task bundles, healer tasks) or by code hash, with
the add and delete helpers of the source.  Go maps are association lists in
insertion order; deletion is idempotent exactly as in the source. -/

def alInsert {β : Type} (k : Nat) (v : β) (m : List (Nat × β)) : List (Nat × β) :=
  if m.any (fun p => p.1 == k) then m.map (fun p => if p.1 == k then (k, v) else p)
  else m ++ [(k, v)]

def alErase {β : Type} (k : Nat) (m : List (Nat × β)) : List (Nat × β) :=
  m.filter (fun p => !(p.1 == k))

def alLookup {β : Type} (k : Nat) (m : List (Nat × β)) : Option β :=
  (m.find? (fun p => p.1 == k)).map Prod.snd

/-- storageTask: the sync task for a chunk of the storage snapshot.  The
genBatch and genTrie collaborators carry no task-visible state and are
omitted; Next, Last are the exported (serialized) fields. -/
structure StorageTask where
  Next : Nat
  Last : Nat
  root : Nat
  requested : Bool
  done : Bool
deriving DecidableEq

/-- accountTask: the sync task for a chunk of the account snapshot.
The res back-pointer and the genBatch and genTrie collaborators are
omitted from the registry model; Next, Last and SubTasks are the exported
(serialized) fields, everything else is unexported. -/
structure AccountTask where
  id : Nat
  Next : Nat
  Last : Nat
  SubTasks : List (Nat × List StorageTask)
  pend : Int
  needCode : List Bool
  needState : List Bool
  needHeal : List Bool
  codeTasks : List Nat
  stateTasks : List (Nat × Nat)
  requested : Bool
  done : Bool
deriving DecidableEq

/-- storageTaskBundle: one wire request spanning several accounts. -/
structure StorageTaskBundle where
  id : Nat
  accounts : List Nat
  roots : List Nat
  mainTask : Option AccountTask
  subtask : Option StorageTask
  origin : Nat
  limit : Nat
deriving DecidableEq

/-- healTask; the task self-pointer is kept as the id it refers to. -/
structure HealTask where
  id : Nat
  trieTasks : List (List Nat × Nat)
  codeTasks : List Nat
  paths : List (List Nat)
  hashes : List Nat
  pathsets : List (List (List Nat))
  taskRef : Option Nat
  root : Nat
  byteCodeReq : Bool
deriving DecidableEq

/-- The tasks container of the source: four registries plus snapped. -/
structure Tasks where
  accountTasks : List (Nat × AccountTask)
  storageTasks : List (Nat × StorageTaskBundle)
  codeTasks : List Nat
  healer : List (Nat × HealTask)
  snapped : Bool
deriving DecidableEq

def newTasks : Tasks :=
  { accountTasks := [], storageTasks := [], codeTasks := [], healer := [],
    snapped := false }

def Tasks.addAccountTask (t : Tasks) (k : Nat) (ct : AccountTask) : Tasks :=
  { t with accountTasks := alInsert k ct t.accountTasks }

def Tasks.deleteAccountTask (t : Tasks) (k : Nat) : Tasks :=
  { t with accountTasks := alErase k t.accountTasks }

def Tasks.addCodeTask (t : Tasks) (h : Nat) : Tasks :=
  { t with codeTasks := if t.codeTasks.contains h then t.codeTasks else t.codeTasks ++ [h] }

def Tasks.deleteCodeTask (t : Tasks) (h : Nat) : Tasks :=
  { t with codeTasks := t.codeTasks.filter (fun x => !(x == h)) }

def Tasks.addStorageTaskBundle (t : Tasks) (k : Nat) (b : StorageTaskBundle) : Tasks :=
  { t with storageTasks := alInsert k b t.storageTasks }

def Tasks.deleteStorageTaskBundle (t : Tasks) (k : Nat) : Tasks :=
  { t with storageTasks := alErase k t.storageTasks }

def Tasks.addHealerTask (t : Tasks) (k : Nat) (h : HealTask) : Tasks :=
  { t with healer := alInsert k h t.healer }

def Tasks.deleteHealerTask (t : Tasks) (k : Nat) : Tasks :=
  { t with healer := alErase k t.healer }

/-- The registry state of the FullStateDownloadManager relevant to batch
production and error handling. -/
structure SyncState where
  tasks : Tasks
  requesting : Tasks
  processing : Tasks
  retries : Tasks
  snapped : Bool
deriving DecidableEq

/-- The registries of a freshly constructed FullStateDownloadManager. -/
def initialSyncState : SyncState :=
  { tasks := newTasks, requesting := newTasks, processing := newTasks,
    retries := newTasks, snapped := false }

/-! ### HandleRequestError (C2)

Direct translation: account tasks and code hashes are deleted from
requesting and added to retries; heal tasks likewise; but for the storage
bundle the source calls requesting.addStorageTaskBundle and
retries.deleteStorageTaskBundle, the reverse of every other kind. -/

def HandleRequestError (accounts : List AccountTask) (codes : List Nat)
    (storages : Option StorageTaskBundle) (healtask codetask : Option HealTask)
    (s : SyncState) : SyncState :=
  let s1 := accounts.foldl (fun st task =>
    { st with requesting := st.requesting.deleteAccountTask task.id,
              retries := st.retries.addAccountTask task.id task }) s
  let s2 := codes.foldl (fun st code =>
    { st with requesting := st.requesting.deleteCodeTask code,
              retries := st.retries.addCodeTask code }) s1
  let s3 := match storages with
    | none => s2
    | some b =>
      { s2 with requesting := s2.requesting.addStorageTaskBundle b.id b,
                retries := s2.retries.deleteStorageTaskBundle b.id }
  let s4 := match healtask with
    | none => s3
    | some ht =>
      { s3 with retries := s3.retries.addHealerTask ht.id ht,
                requesting := s3.requesting.deleteHealerTask ht.id }
  match codetask with
    | none => s4
    | some ct =>
      { s4 with retries := s4.retries.addHealerTask ct.id ct,
                requesting := s4.requesting.deleteHealerTask ct.id }

/-- A concrete storage bundle of a dispatched batch. -/
def bundle5 : StorageTaskBundle :=
  { id := 5, accounts := [77], roots := [88], mainTask := none,
    subtask := none, origin := 0, limit := 3 }

/-- State as it stands after the bundle was dispatched: the bundle sits in
the requesting registry. -/
def dispatchedState : SyncState :=
  { initialSyncState with requesting := newTasks.addStorageTaskBundle 5 bundle5 }

/-- C2 (refuted on the storage kind): after HandleRequestError on a batch
containing a storage bundle, the bundle is in the requesting registry and
absent from retries — the source swaps the add and delete for the storage
bundle, the reverse of what it does for the four other kinds and of what
the spec requires. -/
theorem c2_handleRequestError_storage_swapped :
    alLookup 5 ((HandleRequestError [] [] (some bundle5) none none
        dispatchedState).retries.storageTasks) = none ∧
    alLookup 5 ((HandleRequestError [] [] (some bundle5) none none
        dispatchedState).requesting.storageTasks) = some bundle5 := by
  decide

/-! ### saveSyncStatus and loadSyncStatus serialization (C3)

SyncProgress serializes the account-task map with encoding/json.  Go JSON
marshals only exported fields: for accountTask these are Next, Last and
SubTasks (and for storageTask Next and Last).  The id field is unexported,
so json.Unmarshal leaves it at the zero value 0, and the restore branch of
loadSyncStatus never regenerates it. -/

structure SavedStorageTask where
  Next : Nat
  Last : Nat
deriving DecidableEq

structure SavedAccountTask where
  Next : Nat
  Last : Nat
  SubTasks : List (Nat × List SavedStorageTask)
deriving DecidableEq

def marshalStorageTask (t : StorageTask) : SavedStorageTask :=
  { Next := t.Next, Last := t.Last }

def marshalAccountTask (t : AccountTask) : SavedAccountTask :=
  { Next := t.Next, Last := t.Last,
    SubTasks := t.SubTasks.map (fun p => (p.1, p.2.map marshalStorageTask)) }

/-- json.Unmarshal fills only exported fields; unexported fields (root,
requested, done) stay at their Go zero values. -/
def unmarshalStorageTask (t : SavedStorageTask) : StorageTask :=
  { Next := t.Next, Last := t.Last, root := 0, requested := false, done := false }

/-- json.Unmarshal fills only exported fields; the unexported id (and pend,
the need vectors, codeTasks, stateTasks, requested, done) stay at their Go
zero values — in particular id = 0. -/
def unmarshalAccountTask (t : SavedAccountTask) : AccountTask :=
  { id := 0, Next := t.Next, Last := t.Last,
    SubTasks := t.SubTasks.map (fun p => (p.1, p.2.map unmarshalStorageTask)),
    pend := 0, needCode := [], needState := [], needHeal := [],
    codeTasks := [], stateTasks := [], requested := false, done := false }

/-- The task map saveSyncStatus writes into the snap-sync status key. -/
def saveSyncStatusTasks (s : SyncState) : List (Nat × SavedAccountTask) :=
  s.tasks.accountTasks.map (fun p => (p.1, marshalAccountTask p.2))

/-- The restore branch of loadSyncStatus: the decoded task map becomes the
live account-task set (the genBatch and genTrie rebuilding is collaborator
work and sets no task field), and snapped is set iff the map is empty. -/
def loadSyncStatusRestore (progressTasks : List (Nat × SavedAccountTask))
    (s : SyncState) : SyncState :=
  { s with
    tasks := { s.tasks with
      accountTasks := progressTasks.map (fun p => (p.1, unmarshalAccountTask p.2)) },
    snapped := progressTasks.isEmpty }

def liveTask7 : AccountTask :=
  { id := 7, Next := 0, Last := 100, SubTasks := [], pend := 0,
    needCode := [], needState := [], needHeal := [], codeTasks := [],
    stateTasks := [], requested := false, done := false }

def liveTask9 : AccountTask :=
  { liveTask7 with id := 9, Next := 101, Last := 1000 }

/-- A manager about to shut down, holding two live account tasks with the
non-zero unique ids 7 and 9. -/
def stateBeforeRestart : SyncState :=
  { initialSyncState with
    tasks := { newTasks with accountTasks := [(7, liveTask7), (9, liveTask9)] } }

/-- C3 (refuted at resume): saving the two live tasks (ids 7 and 9) and
reloading them through the restore branch of loadSyncStatus leaves both
live tasks with id 0 — neither non-zero nor unique — because the
unexported id field is not serialized by encoding/json and the loader never
regenerates it (getBatchFromUnprocessed even skips tasks with id 0). -/
theorem c3_restored_ids_zero :
    ((loadSyncStatusRestore (saveSyncStatusTasks stateBeforeRestart)
        stateBeforeRestart).tasks.accountTasks.map (fun p => p.2.id)) = [0, 0] ∧
    (0 : Nat) ≠ 7 := by
  decide

/-! ### getBatchFromRetries and GetNextBatch (C1)

The retries batch producer.  The named return storages starts as the Go
nil pointer (none): it is only assigned inside the storage section, which
additionally reads s.retries.storageTasks[0] — the entry at key 0, which a
Go map returns as nil when absent.  Reading a field of either nil pointer
is a fault, modelled as none. -/

structure BatchResult where
  accounts : List AccountTask
  codes : List Nat
  storages : Option StorageTaskBundle
  healtask : Option HealTask
  codetask : Option HealTask
deriving DecidableEq

/-- The account loop of getBatchFromRetries: early return (flag true) when
n tasks have been gathered before the current entry; otherwise the entry is
appended, added to requesting and deleted from retries. -/
def retriesAccountLoop (n : Nat) :
    List (Nat × AccountTask) → List AccountTask → Tasks → Tasks →
    List AccountTask × Tasks × Tasks × Bool
  | [], accs, req, ret => (accs, req, ret, false)
  | (_, task) :: rest, accs, req, ret =>
    if accs.length = n then (accs, req, ret, true)
    else retriesAccountLoop n rest (accs ++ [task])
      (req.addAccountTask task.id task) (ret.deleteAccountTask task.id)

/-- The code loop of getBatchFromRetries, early-returning when the length
has reached cap. -/
def retriesCodeLoop (cap : Nat) :
    List Nat → List Nat → Tasks → Tasks → List Nat × Tasks × Tasks × Bool
  | [], codes, req, ret => (codes, req, ret, false)
  | code :: rest, codes, req, ret =>
    if codes.length ≥ cap then (codes, req, ret, true)
    else retriesCodeLoop cap rest (codes ++ [code])
      (req.addCodeTask code) (ret.deleteCodeTask code)

/-- The copy getBatchFromRetries makes of a queued heal task (trieTasks and
codeTasks are not copied, matching the source literal). -/
def copyHealTask (id : Nat) (t : HealTask) : HealTask :=
  { id := id, trieTasks := [], codeTasks := [], paths := t.paths,
    hashes := t.hashes, pathsets := t.pathsets, taskRef := t.taskRef,
    root := t.root, byteCodeReq := t.byteCodeReq }

/-- The healer loop of getBatchFromRetries: picks the first non-bytecode
and the first bytecode heal task, moving each from retries to requesting,
and breaks once both are found. -/
def retriesHealerLoop :
    List (Nat × HealTask) → Option HealTask → Option HealTask → Tasks → Tasks →
    Option HealTask × Option HealTask × Tasks × Tasks
  | [], ht, ct, req, ret => (ht, ct, req, ret)
  | (id, task) :: rest, ht, ct, req, ret =>
    let takeHeal := ht.isNone && !task.byteCodeReq
    let ht1 := if takeHeal then some (copyHealTask id task) else ht
    let req1 := if takeHeal then req.addHealerTask id task else req
    let ret1 := if takeHeal then ret.deleteHealerTask id else ret
    let takeCode := ct.isNone && task.byteCodeReq
    let ct1 := if takeCode then some (copyHealTask id task) else ct
    let req2 := if takeCode then req1.addHealerTask id task else req1
    let ret2 := if takeCode then ret1.deleteHealerTask id else ret1
    if ht1.isSome && ct1.isSome then (ht1, ct1, req2, ret2)
    else retriesHealerLoop rest ht1 ct1 req2 ret2

/-- getBatchFromRetries.  Returns none when execution dereferences a nil
pointer: reading the id field of the absent map entry
retries.storageTasks[0], or the final read of storages.accounts when the
storage section left the named return storages nil. -/
def getBatchFromRetries (n : Nat) (s : SyncState) : Option (BatchResult × SyncState) :=
  let ra := retriesAccountLoop n s.retries.accountTasks [] s.requesting s.retries
  let accounts := ra.1
  let req1 := ra.2.1
  let ret1 := ra.2.2.1
  if ra.2.2.2 then
    some ({ accounts := accounts, codes := [], storages := none,
            healtask := none, codetask := none },
          { s with requesting := req1, retries := ret1 })
  else
    let cap := n - accounts.length
    let rc := retriesCodeLoop cap ret1.codeTasks [] req1 ret1
    let codes := rc.1
    let req2 := rc.2.1
    let ret2 := rc.2.2.1
    if rc.2.2.2 then
      some ({ accounts := accounts, codes := codes, storages := none,
              healtask := none, codetask := none },
            { s with requesting := req2, retries := ret2 })
    else
      let stSection : Option (Option StorageTaskBundle × Tasks × Tasks) :=
        if ret2.storageTasks.isEmpty then some (none, req2, ret2)
        else
          match alLookup 0 ret2.storageTasks with
          | none => none
          | some b0 =>
            let storages : StorageTaskBundle :=
              { id := b0.id, accounts := b0.accounts, roots := b0.roots,
                mainTask := b0.mainTask, subtask := b0.subtask,
                limit := b0.limit, origin := b0.origin }
            some (some storages,
                  req2.addStorageTaskBundle storages.id storages,
                  ret2.deleteStorageTaskBundle storages.id)
      match stSection with
      | none => none
      | some (storagesOpt, req3, ret3) =>
        match storagesOpt with
        | none => none
        | some storages =>
          if accounts.length + codes.length + storages.accounts.length > 0 then
            some ({ accounts := accounts, codes := codes,
                    storages := some storages, healtask := none,
                    codetask := none },
                  { s with requesting := req3, retries := ret3 })
          else
            let rh := retriesHealerLoop ret3.healer none none req3 ret3
            some ({ accounts := accounts, codes := codes,
                    storages := some storages, healtask := rh.1,
                    codetask := rh.2.1 },
                  { s with requesting := rh.2.2.1, retries := rh.2.2.2 })

/-- The prefix of GetNextBatch: the getBatchFromRetries call and the nItems
computation, which reads storages.roots, healtask.hashes and
codetask.hashes and therefore dereferences whichever of the three is nil,
followed by the zero-capacity early return.  Everything past that point
(the completion check with SyncCompleted and the refill from
getBatchFromUnprocessed) is the continuation rest; the fault theorem below
holds for every continuation, since execution faults before reaching it.
StatesPerRequest is a constant defined outside the given source file and is
passed as a parameter; the fault is independent of its value. -/
def GetNextBatchWith
    (rest : Int → BatchResult → SyncState → Option (BatchResult × SyncState))
    (statesPerRequest : Nat) (s : SyncState) : Option (BatchResult × SyncState) :=
  match getBatchFromRetries statesPerRequest s with
  | none => none
  | some (r, s1) =>
    match r.storages, r.healtask, r.codetask with
    | some st, some ht, some ct =>
      let nItems := r.accounts.length + r.codes.length + st.roots.length +
        ht.hashes.length + ct.hashes.length
      let cap : Int := (statesPerRequest : Int) - nItems
      if cap = 0 then some (r, s1) else rest cap r s1
    | _, _, _ => none

/-- C1 (refuted): on the fresh manager — whose retries registry holds no
storage bundle and no heal task — GetNextBatch faults instead of returning:
getBatchFromRetries reaches the read of storages.accounts with the named
return storages still nil.  The fault is independent of StatesPerRequest
and of everything GetNextBatch would do after the retries batch. -/
theorem c1_getNextBatch_nil_dereference :
    ∀ (rest : Int → BatchResult → SyncState → Option (BatchResult × SyncState))
      (statesPerRequest : Nat),
      GetNextBatchWith rest statesPerRequest initialSyncState = none := by
  intro rest statesPerRequest
  rfl

/-! ### Block verify-and-insert (C8, downloader.go)

The consensus engine, the commit-signature parser and the chain insertion
are collaborators, modelled as an oracle record; an error value is a
natural number.  The distinct error kinds mirror the distinct Go types:
sigVerifyErr for signature failures, wrapped errors otherwise. -/

structure Block where
  lastCommitSig : Nat
  lastCommitBitmap : Nat
  currentCommitSig : Nat
deriving DecidableEq, Inhabited

inductive SyncErr where
  | sigVerify (inner : Nat)
  | parseCommitSig (inner : Nat)
  | verifyHeaderWrap (inner : Nat)
  | insertChainWrap (inner : Nat)
deriving DecidableEq

structure BlockChainEnv where
  parseCommitSigAndBitmap : Nat → Except Nat (Nat × Nat)
  verifyHeaderSignature : Block → Nat → Nat → Option Nat
  verifyHeader : Block → Option Nat
  insertChain : Block → Option Nat

/-- The three checks applied to a block once the signature source has been
chosen: header signature (failure wrapped in the distinct sigVerifyErr
type), header verification, chain insertion. -/
def verifyChecks (bc : BlockChainEnv) (block : Block) (sig bm : Nat) : Option SyncErr :=
  match bc.verifyHeaderSignature block sig bm with
  | some e => some (SyncErr.sigVerify e)
  | none =>
    match bc.verifyHeader block with
    | some e => some (SyncErr.verifyHeaderWrap e)
    | none =>
      match bc.insertChain block with
      | some e => some (SyncErr.insertChainWrap e)
      | none => none

/-- verifyAndInsertBlock: with a successor block available, its header's
last-commit signature and bitmap attest the current block; otherwise the
block's own current commit sig is parsed. -/
def verifyAndInsertBlock (bc : BlockChainEnv) (block : Block)
    (nextBlocks : List Block) : Option SyncErr :=
  match nextBlocks with
  | next :: _ => verifyChecks bc block next.lastCommitSig next.lastCommitBitmap
  | [] =>
    match bc.parseCommitSigAndBitmap block.currentCommitSig with
    | Except.error e => some (SyncErr.parseCommitSig e)
    | Except.ok (sig, bm) => verifyChecks bc block sig bm

/-- verifyAndInsertBlocks: process the blocks in order, passing the suffix
as the candidate successor blocks; on the first failure return its index
(the number of blocks already inserted) and the error. -/
def verifyAndInsertBlocks (bc : BlockChainEnv) : List Block → Nat × Option SyncErr
  | [] => (0, none)
  | block :: rest =>
    match verifyAndInsertBlock bc block rest with
    | some e => (0, some e)
    | none =>
      let r := verifyAndInsertBlocks bc rest
      (r.1 + 1, r.2)

theorem verifyAndInsertBlocks_first_error (bc : BlockChainEnv) :
    ∀ blocks : List Block,
      (∀ n, verifyAndInsertBlocks bc blocks = (n, none) →
        n = blocks.length ∧
        ∀ i, i < blocks.length →
          verifyAndInsertBlock bc (blocks.getD i default) (blocks.drop (i + 1)) = none) ∧
      (∀ n e, verifyAndInsertBlocks bc blocks = (n, some e) →
        n < blocks.length ∧
        verifyAndInsertBlock bc (blocks.getD n default) (blocks.drop (n + 1)) = some e ∧
        ∀ i, i < n →
          verifyAndInsertBlock bc (blocks.getD i default) (blocks.drop (i + 1)) = none) := by
  intro blocks
  induction blocks with
  | nil =>
    constructor
    · intro n hn
      have h1 : (0 : Nat) = n := congrArg Prod.fst hn
      exact ⟨h1.symm, fun i hi => absurd hi (Nat.not_lt_zero i)⟩
    · intro n e hn
      have h2 : (none : Option SyncErr) = some e := congrArg Prod.snd hn
      cases h2
  | cons b rest ih =>
    constructor
    · intro n hn
      cases hcheck : verifyAndInsertBlock bc b rest with
      | some e0 =>
        rw [verifyAndInsertBlocks, hcheck] at hn
        have h2 : some e0 = (none : Option SyncErr) := congrArg Prod.snd hn
        cases h2
      | none =>
        rw [verifyAndInsertBlocks, hcheck] at hn
        cases hv : verifyAndInsertBlocks bc rest with
        | mk k r2 =>
          rw [hv] at hn
          have h1 : k + 1 = n := congrArg Prod.fst hn
          have h2 : r2 = none := congrArg Prod.snd hn
          subst h2
          have hrest := ih.1 k hv
          refine ⟨?_, ?_⟩
          · rw [← h1, hrest.1]
            simp
          · intro i hi
            cases i with
            | zero => simpa using hcheck
            | succ j =>
              have hj : j < rest.length := by simpa using hi
              simpa using hrest.2 j hj
    · intro n e hn
      cases hcheck : verifyAndInsertBlock bc b rest with
      | some e0 =>
        rw [verifyAndInsertBlocks, hcheck] at hn
        have h1 : (0 : Nat) = n := congrArg Prod.fst hn
        have h2 : some e0 = some e := congrArg Prod.snd hn
        injection h2 with h2
        subst h1
        refine ⟨by simp, ?_, ?_⟩
        · simpa [h2] using hcheck
        · intro i hi
          omega
      | none =>
        rw [verifyAndInsertBlocks, hcheck] at hn
        cases hv : verifyAndInsertBlocks bc rest with
        | mk k r2 =>
          rw [hv] at hn
          have h1 : k + 1 = n := congrArg Prod.fst hn
          have h2 : r2 = some e := congrArg Prod.snd hn
          subst h2
          have hrest := ih.2 k e hv
          have hl : (b :: rest).length = rest.length + 1 := by simp
          refine ⟨?_, ?_, ?_⟩
          · have hk := hrest.1
            omega
          · rw [← h1]
            simpa using hrest.2.1
          · intro i hi
            cases i with
            | zero => simpa using hcheck
            | succ j =>
              have hj : j < k := by omega
              simpa using hrest.2.2 j hj

/-- C8: verifyAndInsertBlocks processes the blocks in order and returns the
number of blocks inserted before the first failure together with that first
error, or the full length and no error; block k is checked against the
last-commit signature and bitmap of block k + 1 when one exists, else
against the parse of its own current commit sig; a signature failure yields
the distinct sigVerify error kind. -/
theorem c8_verifyAndInsertBlocks_contract (bc : BlockChainEnv) (blocks : List Block) :
    ((∀ n, verifyAndInsertBlocks bc blocks = (n, none) →
        n = blocks.length ∧
        ∀ i, i < blocks.length →
          verifyAndInsertBlock bc (blocks.getD i default) (blocks.drop (i + 1)) = none) ∧
     (∀ n e, verifyAndInsertBlocks bc blocks = (n, some e) →
        n < blocks.length ∧
        verifyAndInsertBlock bc (blocks.getD n default) (blocks.drop (n + 1)) = some e ∧
        ∀ i, i < n →
          verifyAndInsertBlock bc (blocks.getD i default) (blocks.drop (i + 1)) = none)) ∧
    (∀ (block next : Block) (others : List Block),
      verifyAndInsertBlock bc block (next :: others) =
        verifyChecks bc block next.lastCommitSig next.lastCommitBitmap) ∧
    (∀ block : Block,
      verifyAndInsertBlock bc block [] =
        match bc.parseCommitSigAndBitmap block.currentCommitSig with
        | Except.error e => some (SyncErr.parseCommitSig e)
        | Except.ok sb => verifyChecks bc block sb.1 sb.2) ∧
    (∀ (block : Block) (sig bm e : Nat),
      bc.verifyHeaderSignature block sig bm = some e →
      verifyChecks bc block sig bm = some (SyncErr.sigVerify e)) ∧
    (∀ a b2 : Nat, SyncErr.sigVerify a ≠ SyncErr.parseCommitSig b2 ∧
      SyncErr.sigVerify a ≠ SyncErr.verifyHeaderWrap b2 ∧
      SyncErr.sigVerify a ≠ SyncErr.insertChainWrap b2) := by
  refine ⟨verifyAndInsertBlocks_first_error bc blocks, ?_, ?_, ?_, ?_⟩
  · intro block next others
    rfl
  · intro block
    cases hp : bc.parseCommitSigAndBitmap block.currentCommitSig with
    | error e => simp [verifyAndInsertBlock, hp]
    | ok sb =>
      cases sb with
      | mk sig bm => simp [verifyAndInsertBlock, hp]
  · intro block sig bm e he
    simp [verifyChecks, he]
  · intro a b2
    refine ⟨?_, ?_, ?_⟩ <;> intro h <;> cases h

/-- A concrete engine oracle whose signature check rejects exactly the
block whose current commit sig is 99, with inner error 7. -/
def bcFailSecond : BlockChainEnv :=
  { parseCommitSigAndBitmap := fun raw => Except.ok (raw, raw),
    verifyHeaderSignature := fun block _ _ =>
      if block.currentCommitSig = 99 then some 7 else none,
    verifyHeader := fun _ => none,
    insertChain := fun _ => none }

def blocksDemo : List Block := [⟨1, 2, 3⟩, ⟨4, 5, 99⟩, ⟨6, 7, 8⟩]

/-- C8 witness: the contract theorem applied to a concrete engine and a
concrete block list whose second block fails signature verification. -/
theorem c8_verifyAndInsertBlocks_contract_witness :
    (1 : Nat) < blocksDemo.length ∧
    verifyAndInsertBlock bcFailSecond (blocksDemo.getD 1 default)
      (blocksDemo.drop 2) = some (SyncErr.sigVerify 7) :=
  have h := (c8_verifyAndInsertBlocks_contract bcFailSecond blocksDemo).1.2
    1 (SyncErr.sigVerify 7) rfl
  ⟨h.1, h.2.1⟩

/-! ### RLP encoding (collaborator github.com/ethereum/go-ethereum/rlp)

The slim-account functions call into the go-ethereum rlp codec; the codec
is embedded here for the byte-string shapes those functions use.  Big-endian
minimal integer bytes, short and long string and list headers, and the
canonicity checks the decoder enforces (single byte below 0x80 encodes
itself; length bytes carry no leading zero; long forms only for lengths of
at least 56). -/

/-- Big-endian byte expansion with explicit fuel (the fuel argument makes
the recursion structural; fuel n suffices for value n). -/
def beBytesF : Nat → Nat → List Nat
  | _, 0 => []
  | 0, _ => []
  | fuel + 1, n => beBytesF fuel (n / 256) ++ [n % 256]

/-- Minimal big-endian byte representation of a natural number; zero is the
empty string, as in rlp. -/
def beBytes (n : Nat) : List Nat := beBytesF n n

def bytesToNat (l : List Nat) : Nat := l.foldl (fun a b => a * 256 + b) 0

theorem beBytesF_fuel : ∀ (f1 f2 n : Nat), n ≤ f1 → n ≤ f2 →
    beBytesF f1 n = beBytesF f2 n := by
  intro f1
  induction f1 using Nat.strong_induction_on with
  | _ f1 ih =>
    intro f2 n h1 h2
    cases n with
    | zero => cases f1 <;> cases f2 <;> rfl
    | succ m =>
      cases f1 with
      | zero => omega
      | succ g1 =>
        cases f2 with
        | zero => omega
        | succ g2 =>
          show beBytesF g1 ((m + 1) / 256) ++ [(m + 1) % 256] =
            beBytesF g2 ((m + 1) / 256) ++ [(m + 1) % 256]
          have hdiv : (m + 1) / 256 < m + 1 := Nat.div_lt_self (by omega) (by omega)
          rw [ih g1 (by omega) g2 ((m + 1) / 256) (by omega) (by omega)]

theorem beBytes_unfold (n : Nat) (h : n ≠ 0) :
    beBytes n = beBytes (n / 256) ++ [n % 256] := by
  cases n with
  | zero => exact absurd rfl h
  | succ m =>
    show beBytesF m ((m + 1) / 256) ++ [(m + 1) % 256] = _
    have hdiv : (m + 1) / 256 < m + 1 := Nat.div_lt_self (by omega) (by omega)
    rw [beBytesF_fuel m ((m + 1) / 256) ((m + 1) / 256) (by omega) (by omega)]
    rfl

theorem bytesToNat_foldl (l : List Nat) : ∀ acc : Nat,
    l.foldl (fun a b => a * 256 + b) acc = acc * 256 ^ l.length + bytesToNat l := by
  induction l with
  | nil => intro acc; simp [bytesToNat]
  | cons b t ih =>
    intro acc
    show t.foldl (fun a b => a * 256 + b) (acc * 256 + b) = _
    rw [ih (acc * 256 + b)]
    have hb : bytesToNat (b :: t) = b * 256 ^ t.length + bytesToNat t := by
      show t.foldl (fun a b => a * 256 + b) (0 * 256 + b) = _
      rw [ih (0 * 256 + b)]
      ring_nf
    rw [hb]
    simp [List.length_cons, pow_succ]
    ring

theorem bytesToNat_append (xs ys : List Nat) :
    bytesToNat (xs ++ ys) = bytesToNat xs * 256 ^ ys.length + bytesToNat ys := by
  show (xs ++ ys).foldl (fun a b => a * 256 + b) 0 = _
  rw [List.foldl_append, bytesToNat_foldl ys (xs.foldl (fun a b => a * 256 + b) 0)]
  rfl

theorem bytesToNat_beBytes (n : Nat) : bytesToNat (beBytes n) = n := by
  induction n using Nat.strong_induction_on with
  | _ n ih =>
    by_cases h : n = 0
    · subst h; rfl
    · rw [beBytes_unfold n h, bytesToNat_append]
      have hdiv : n / 256 < n := Nat.div_lt_self (Nat.pos_of_ne_zero h) (by omega)
      rw [ih (n / 256) hdiv]
      have : bytesToNat [n % 256] = n % 256 := by
        show 0 * 256 + n % 256 = n % 256
        omega
      rw [this]
      simp [pow_one]
      omega

theorem beBytes_head_ne_zero (n : Nat) (h : n ≠ 0) :
    ∃ b t, beBytes n = b :: t ∧ b ≠ 0 := by
  induction n using Nat.strong_induction_on with
  | _ n ih =>
    by_cases hsmall : n < 256
    · refine ⟨n % 256, [], ?_, ?_⟩
      · rw [beBytes_unfold n h]
        have : n / 256 = 0 := Nat.div_eq_of_lt hsmall
        rw [this]
        rfl
      · omega
    · have hq : n / 256 ≠ 0 := by
        intro hq0
        have := Nat.div_eq_of_lt (by omega : n < 256)
        omega
      have hdiv : n / 256 < n := Nat.div_lt_self (Nat.pos_of_ne_zero h) (by omega)
      rcases ih (n / 256) hdiv hq with ⟨b, t, hbt, hb⟩
      refine ⟨b, t ++ [n % 256], ?_, hb⟩
      rw [beBytes_unfold n h, hbt]
      rfl

theorem beBytes_length_le : ∀ (k n : Nat), n < 256 ^ k → (beBytes n).length ≤ k := by
  intro k
  induction k with
  | zero =>
    intro n hn
    have : n = 0 := by simpa using hn
    subst this
    simp [beBytes, beBytesF]
  | succ j ih =>
    intro n hn
    by_cases h : n = 0
    · subst h; simp [beBytes, beBytesF]
    · rw [beBytes_unfold n h]
      have hq : n / 256 < 256 ^ j := by
        rw [Nat.div_lt_iff_lt_mul (by omega)]
        calc n < 256 ^ (j + 1) := hn
        _ = 256 ^ j * 256 := by rw [pow_succ]
      have := ih (n / 256) hq
      simp [List.length_append]
      omega

theorem beBytes_ne_nil (n : Nat) (h : n ≠ 0) : beBytes n ≠ [] := by
  rcases beBytes_head_ne_zero n h with ⟨b, t, hbt, _⟩
  rw [hbt]
  simp

/-- rlp length header: offset + len for short payloads, otherwise the
offset shifted by 55 plus the length of the big-endian length, followed by
the length bytes. -/
def encLen (offset len : Nat) : List Nat :=
  if len < 56 then [offset + len]
  else (offset + 55 + (beBytes len).length) :: beBytes len

/-- rlp byte-string encoding: a single byte below 0x80 encodes itself,
otherwise a string header is prepended. -/
def encBytes (s : List Nat) : List Nat :=
  if s.length = 1 ∧ s.headD 0 < 128 then s else encLen 128 s.length ++ s

/-- rlp unsigned integer encoding: the minimal big-endian bytes as a
string. -/
def encNat (n : Nat) : List Nat := encBytes (beBytes n)

/-- rlp list encoding of an already-encoded payload. -/
def encList (payload : List Nat) : List Nat := encLen 192 payload.length ++ payload

/-- rlp string item parser: returns content and remainder, enforcing the
canonicity rules of the go-ethereum decoder. -/
def parseStr : List Nat → Option (List Nat × List Nat)
  | [] => none
  | b :: rest =>
    if b < 128 then some ([b], rest)
    else if b < 184 then
      let len := b - 128
      if rest.length < len then none
      else if len = 1 ∧ rest.headD 0 < 128 then none
      else some (rest.take len, rest.drop len)
    else if b < 192 then
      let k := b - 183
      if rest.length < k then none
      else
        let lenBytes := rest.take k
        if lenBytes.headD 1 = 0 then none
        else
          let len := bytesToNat lenBytes
          if len < 56 then none
          else if (rest.drop k).length < len then none
          else some ((rest.drop k).take len, (rest.drop k).drop len)
    else none

/-- rlp list header parser: returns the list payload and the remainder. -/
def parseListHdr : List Nat → Option (List Nat × List Nat)
  | [] => none
  | b :: rest =>
    if b < 192 then none
    else if b < 248 then
      let len := b - 192
      if rest.length < len then none
      else some (rest.take len, rest.drop len)
    else
      let k := b - 247
      if rest.length < k then none
      else
        let lenBytes := rest.take k
        if lenBytes.headD 1 = 0 then none
        else
          let len := bytesToNat lenBytes
          if len < 56 then none
          else if (rest.drop k).length < len then none
          else some ((rest.drop k).take len, (rest.drop k).drop len)

/-- uint64 field decoding from a string content: at most 8 bytes, no
leading zero. -/
def decU64 (s : List Nat) : Option Nat :=
  if 8 < s.length then none
  else if s.headD 1 = 0 then none
  else some (bytesToNat s)

/-- big.Int field decoding from a string content: no leading zero. -/
def decBig (s : List Nat) : Option Nat :=
  if s.headD 1 = 0 then none else some (bytesToNat s)

theorem parseStr_encBytes (s rest : List Nat) (hlen : s.length < 256 ^ 8) :
    parseStr (encBytes s ++ rest) = some (s, rest) := by
  by_cases hsingle : s.length = 1 ∧ s.headD 0 < 128
  · rcases s with _ | ⟨b, t⟩
    · simp at hsingle
    · rcases t with _ | ⟨c, u⟩
      · have hb : b < 128 := by simpa using hsingle.2
        simp [encBytes, hsingle, parseStr, hb]
      · simp at hsingle
  · rw [encBytes, if_neg hsingle]
    by_cases hshort : s.length < 56
    · rw [encLen, if_pos hshort]
      have hge : ¬ (128 + s.length < 128) := by omega
      have hlt : 128 + s.length < 184 := by omega
      show parseStr ((128 + s.length) :: (s ++ rest)) = some (s, rest)
      rw [parseStr]
      rw [if_neg hge, if_pos hlt]
      have hlen1 : 128 + s.length - 128 = s.length := by omega
      rw [hlen1]
      have hnotlt : ¬ ((s ++ rest).length < s.length) := by
        simp [List.length_append]
      rw [if_neg hnotlt]
      have hcanon : ¬ (s.length = 1 ∧ (s ++ rest).headD 0 < 128) := by
        rintro ⟨h1, h2⟩
        rcases s with _ | ⟨b, t⟩
        · simp at h1
        · rcases t with _ | ⟨c, u⟩
          · exact hsingle ⟨h1, by simpa using h2⟩
          · simp at h1
      rw [if_neg hcanon, List.take_left, List.drop_left]
    · have hlong : ¬ (s.length < 56) := hshort
      rw [encLen, if_neg hlong]
      set L := s.length with hL
      set k := (beBytes L).length with hk
      have hk1 : 1 ≤ k := by
        rw [hk]
        have hne : beBytes L ≠ [] := beBytes_ne_nil L (by omega)
        cases hbl : beBytes L with
        | nil => exact absurd hbl hne
        | cons b t => simp [hbl]
      have hk8 : k ≤ 8 := beBytes_length_le 8 L hlen
      have hge : ¬ (128 + 55 + k < 128) := by omega
      have hge2 : ¬ (128 + 55 + k < 184) := by omega
      have hlt192 : 128 + 55 + k < 192 := by omega
      rw [List.append_assoc]
      show parseStr ((128 + 55 + k) :: (beBytes L ++ (s ++ rest))) = some (s, rest)
      rw [parseStr, if_neg hge, if_neg hge2, if_pos hlt192]
      have hksub : 128 + 55 + k - 183 = k := by omega
      rw [hksub]
      have hrl : ¬ ((beBytes L ++ (s ++ rest)).length < k) := by
        simp [List.length_append, hk]
      rw [if_neg hrl]
      have htake : (beBytes L ++ (s ++ rest)).take k = beBytes L := by
        rw [hk, List.take_left]
      have hdrop : (beBytes L ++ (s ++ rest)).drop k = s ++ rest := by
        rw [hk, List.drop_left]
      rw [htake, hdrop]
      rcases beBytes_head_ne_zero L (by omega) with ⟨b, t, hbt, hb⟩
      have hhead : (beBytes L).headD 1 ≠ 0 := by rw [hbt]; simpa using hb
      rw [if_neg hhead]
      rw [bytesToNat_beBytes]
      rw [if_neg hlong]
      have hrl2 : ¬ ((s ++ rest).length < L) := by
        simp [List.length_append, hL]
      rw [if_neg hrl2, hL, List.take_left, List.drop_left]

theorem parseListHdr_encList (payload rest : List Nat)
    (hlen : payload.length < 256 ^ 8) :
    parseListHdr (encList payload ++ rest) = some (payload, rest) := by
  by_cases hshort : payload.length < 56
  · rw [encList, encLen, if_pos hshort]
    have hge : ¬ (192 + payload.length < 192) := by omega
    have hlt : 192 + payload.length < 248 := by omega
    show parseListHdr ((192 + payload.length) :: (payload ++ rest)) = some (payload, rest)
    rw [parseListHdr, if_neg hge, if_pos hlt]
    have hlen1 : 192 + payload.length - 192 = payload.length := by omega
    rw [hlen1]
    have hnotlt : ¬ ((payload ++ rest).length < payload.length) := by
      simp [List.length_append]
    rw [if_neg hnotlt, List.take_left, List.drop_left]
  · rw [encList, encLen, if_neg hshort]
    set L := payload.length with hL
    set k := (beBytes L).length with hk
    have hk1 : 1 ≤ k := by
      rw [hk]
      have hne : beBytes L ≠ [] := beBytes_ne_nil L (by omega)
      cases hbl : beBytes L with
      | nil => exact absurd hbl hne
      | cons b t => simp [hbl]
    have hk8 : k ≤ 8 := beBytes_length_le 8 L hlen
    have hge : ¬ (192 + 55 + k < 192) := by omega
    have hge2 : ¬ (192 + 55 + k < 248) := by omega
    rw [List.append_assoc]
    show parseListHdr ((192 + 55 + k) :: (beBytes L ++ (payload ++ rest))) =
      some (payload, rest)
    rw [parseListHdr, if_neg hge, if_neg hge2]
    have hksub : 192 + 55 + k - 247 = k := by omega
    rw [hksub]
    have hrl : ¬ ((beBytes L ++ (payload ++ rest)).length < k) := by
      simp [List.length_append, hk]
    rw [if_neg hrl]
    have htake : (beBytes L ++ (payload ++ rest)).take k = beBytes L := by
      rw [hk, List.take_left]
    have hdrop : (beBytes L ++ (payload ++ rest)).drop k = payload ++ rest := by
      rw [hk, List.drop_left]
    rw [htake, hdrop]
    rcases beBytes_head_ne_zero L (by omega) with ⟨b, t, hbt, hb⟩
    have hhead : (beBytes L).headD 1 ≠ 0 := by rw [hbt]; simpa using hb
    rw [if_neg hhead]
    rw [bytesToNat_beBytes]
    rw [if_neg hshort]
    have hrl2 : ¬ ((payload ++ rest).length < L) := by
      simp [List.length_append, hL]
    rw [if_neg hrl2, hL, List.take_left, List.drop_left]

theorem decU64_beBytes (n : Nat) (h : n < 2 ^ 64) : decU64 (beBytes n) = some n := by
  have h8 : (beBytes n).length ≤ 8 := by
    apply beBytes_length_le
    have : (256 : Nat) ^ 8 = 2 ^ 64 := by norm_num
    omega
  rw [decU64, if_neg (by omega)]
  by_cases h0 : n = 0
  · subst h0
    show (if (beBytes 0).headD 1 = 0 then none else some (bytesToNat (beBytes 0))) = some 0
    rfl
  · rcases beBytes_head_ne_zero n h0 with ⟨b, t, hbt, hb⟩
    have hhead : (beBytes n).headD 1 ≠ 0 := by rw [hbt]; simpa using hb
    rw [if_neg hhead, bytesToNat_beBytes]

theorem decBig_beBytes (n : Nat) : decBig (beBytes n) = some n := by
  by_cases h0 : n = 0
  · subst h0; rfl
  · rcases beBytes_head_ne_zero n h0 with ⟨b, t, hbt, hb⟩
    have hhead : (beBytes n).headD 1 ≠ 0 := by rw [hbt]; simpa using hb
    rw [decBig, if_neg hhead, bytesToNat_beBytes]

/-! ### Slim and full account encoding (SlimAccountRLP, FullAccount,
FullAccountRLP) -/

/-- types.EmptyRootHash, the hash of the empty trie. -/
def emptyRootHash : List Nat :=
  [0x56, 0xe8, 0x1f, 0x17, 0x1b, 0xcc, 0x55, 0xa6, 0xff, 0x83, 0x45, 0xe6,
   0x92, 0xc0, 0xf8, 0x6e, 0x5b, 0x48, 0xe0, 0x1b, 0x99, 0x6c, 0xad, 0xc0,
   0x01, 0x62, 0x2f, 0xb5, 0xe3, 0x63, 0xb4, 0x21]

/-- types.EmptyCodeHash, the keccak hash of empty code. -/
def emptyCodeHash : List Nat :=
  [0xc5, 0xd2, 0x46, 0x01, 0x86, 0xf7, 0x23, 0x3c, 0x92, 0x7e, 0x7d, 0xb2,
   0xdc, 0xc7, 0x03, 0xc0, 0xe5, 0x00, 0xb6, 0x53, 0xca, 0x82, 0x27, 0x3b,
   0x7b, 0xfa, 0xd8, 0x04, 0x5d, 0x85, 0xa4, 0x70]

/-- types.StateAccount: Nonce uint64, Balance big.Int (balances are
non-negative; rlp rejects negative big integers), Root common.Hash
(32 bytes), CodeHash a byte slice. -/
structure StateAccount where
  nonce : Nat
  balance : Nat
  root : List Nat
  codeHash : List Nat
deriving DecidableEq

/-- The four-field slim account: Root and CodeHash become empty strings
when they equal the canonical empty hashes. -/
structure SlimAccount where
  nonce : Nat
  balance : Nat
  root : List Nat
  codeHash : List Nat
deriving DecidableEq

/-- SlimAccountRLP: replace the empty root and empty code hash by nil and
rlp-encode the four fields. -/
def SlimAccountRLP (a : StateAccount) : List Nat :=
  let slimRoot := if a.root = emptyRootHash then [] else a.root
  let slimCodeHash := if a.codeHash = emptyCodeHash then [] else a.codeHash
  encList (encNat a.nonce ++ encNat a.balance ++ encBytes slimRoot ++
    encBytes slimCodeHash)

/-- rlp decoding of a SlimAccount: a list of exactly four string items,
with uint64 and big.Int canonicity on the first two. -/
def decodeSlimAccount (data : List Nat) : Option SlimAccount := do
  let (payload, rest) ← parseListHdr data
  if rest.isEmpty then
    let (s1, r1) ← parseStr payload
    let (s2, r2) ← parseStr r1
    let (s3, r3) ← parseStr r2
    let (s4, r4) ← parseStr r3
    if r4.isEmpty then
      let nonce ← decU64 s1
      let balance ← decBig s2
      some ⟨nonce, balance, s3, s4⟩
    else none
  else none

/-- rlp decoding of a types.StateAccount: same shape, but the Root field is
a common.Hash and must be exactly 32 bytes. -/
def decodeStateAccount (data : List Nat) : Option StateAccount := do
  let (payload, rest) ← parseListHdr data
  if rest.isEmpty then
    let (s1, r1) ← parseStr payload
    let (s2, r2) ← parseStr r1
    let (s3, r3) ← parseStr r2
    let (s4, r4) ← parseStr r3
    if r4.isEmpty then
      let nonce ← decU64 s1
      let balance ← decBig s2
      if s3.length = 32 then some ⟨nonce, balance, s3, s4⟩ else none
    else none
  else none

/-- common.BytesToHash: left-pad with zeros to 32 bytes, keeping the last
32 bytes when longer. -/
def bytesToHash32 (s : List Nat) : List Nat :=
  let t := if 32 ≤ s.length then s.drop (s.length - 32) else s
  List.replicate (32 - t.length) 0 ++ t

/-- FullAccount: decode the slim rlp and map the nil root and code hash
back to the canonical empty hashes. -/
def FullAccount (data : List Nat) : Option StateAccount := do
  let slim ← decodeSlimAccount data
  some { nonce := slim.nonce, balance := slim.balance,
         root := if slim.root.isEmpty then emptyRootHash else bytesToHash32 slim.root,
         codeHash := if slim.codeHash.isEmpty then emptyCodeHash else slim.codeHash }

/-- The rlp encoding of a full types.StateAccount. -/
def rlpStateAccount (a : StateAccount) : List Nat :=
  encList (encNat a.nonce ++ encNat a.balance ++ encBytes a.root ++
    encBytes a.codeHash)

/-- FullAccountRLP: decode the slim form and re-encode the full form. -/
def FullAccountRLP (data : List Nat) : Option (List Nat) :=
  (FullAccount data).map rlpStateAccount

theorem encBytes_length_le (s : List Nat) (h : s.length < 256 ^ 8) :
    (encBytes s).length ≤ s.length + 9 := by
  rw [encBytes]
  split
  · simp
  · rw [encLen]
    split
    · simp
    · have := beBytes_length_le 8 s.length h
      simp [List.length_append]
      omega

theorem bytesToHash32_of_len32 (s : List Nat) (h : s.length = 32) :
    bytesToHash32 s = s := by
  rw [bytesToHash32]
  simp [h]

/-- Decoding the slim encoding recovers the four slim fields. -/
theorem decodeSlim_roundtrip (a : StateAccount)
    (hnonce : a.nonce < 2 ^ 64) (hbal : a.balance < 2 ^ 256)
    (hroot : a.root.length = 32) (hchlen : a.codeHash.length < 2 ^ 32) :
    decodeSlimAccount (SlimAccountRLP a) =
      some ⟨a.nonce, a.balance,
            if a.root = emptyRootHash then [] else a.root,
            if a.codeHash = emptyCodeHash then [] else a.codeHash⟩ := by
  have h2564 : (256 : Nat) ^ 8 = 2 ^ 64 := by norm_num
  have h25632 : (256 : Nat) ^ 32 = 2 ^ 256 := by norm_num
  set sr := if a.root = emptyRootHash then [] else a.root with hsr
  set sc := if a.codeHash = emptyCodeHash then [] else a.codeHash with hsc
  have hsrlen : sr.length ≤ 32 := by
    rw [hsr]
    split
    · simp
    · omega
  have hsclen : sc.length < 2 ^ 32 := by
    rw [hsc]
    split
    · norm_num
    · exact hchlen
  have hn8 : (beBytes a.nonce).length ≤ 8 :=
    beBytes_length_le 8 a.nonce (by omega)
  have hb32 : (beBytes a.balance).length ≤ 32 :=
    beBytes_length_le 32 a.balance (by omega)
  have hsmall : (2 : Nat) ^ 32 < 256 ^ 8 := by norm_num
  have hnl : (beBytes a.nonce).length < 256 ^ 8 := by omega
  have hbl : (beBytes a.balance).length < 256 ^ 8 := by omega
  have hsrl : sr.length < 256 ^ 8 := by omega
  have hscl : sc.length < 256 ^ 8 := by omega
  set rest2 : List Nat := encBytes sr ++ encBytes sc with hrest2
  set rest1 : List Nat := encNat a.balance ++ rest2 with hrest1
  set payload : List Nat := encNat a.nonce ++ rest1 with hpayload
  have hpaylen : payload.length < 256 ^ 8 := by
    have e1 := encBytes_length_le (beBytes a.nonce) hnl
    have e2 := encBytes_length_le (beBytes a.balance) hbl
    have e3 := encBytes_length_le sr hsrl
    have e4 := encBytes_length_le sc hscl
    have hlen : payload.length = (encNat a.nonce).length + ((encNat a.balance).length +
        ((encBytes sr).length + (encBytes sc).length)) := by
      rw [hpayload, hrest1, hrest2]
      simp [List.length_append]
    have hbig : (2 : Nat) ^ 32 + 200 < 256 ^ 8 := by norm_num
    rw [hlen]
    unfold encNat at e1 e2 ⊢
    omega
  have hList : parseListHdr (encList payload) = some (payload, []) := by
    have := parseListHdr_encList payload [] hpaylen
    simpa using this
  have hP1 : parseStr payload = some (beBytes a.nonce, rest1) :=
    parseStr_encBytes (beBytes a.nonce) rest1 hnl
  have hP2 : parseStr rest1 = some (beBytes a.balance, rest2) :=
    parseStr_encBytes (beBytes a.balance) rest2 hbl
  have hP3 : parseStr rest2 = some (sr, encBytes sc) :=
    parseStr_encBytes sr (encBytes sc) hsrl
  have hP4 : parseStr (encBytes sc) = some (sc, []) := by
    have := parseStr_encBytes sc [] hscl
    simpa using this
  have hEnc : SlimAccountRLP a = encList payload := by
    rw [SlimAccountRLP, hpayload, hrest1, hrest2]
    simp [List.append_assoc]
  rw [hEnc]
  rw [decodeSlimAccount]
  rw [hList]
  simp only [Option.bind_eq_bind, Option.some_bind, List.isEmpty_nil, if_pos rfl]
  rw [hP1]
  simp only [Option.some_bind]
  rw [hP2]
  simp only [Option.some_bind]
  rw [hP3]
  simp only [Option.some_bind]
  rw [hP4]
  simp only [Option.some_bind, List.isEmpty_nil, if_pos rfl]
  rw [decU64_beBytes a.nonce hnonce]
  simp only [Option.some_bind]
  rw [decBig_beBytes a.balance]
  simp

/-- FullAccount inverts SlimAccountRLP exactly on well-formed accounts with
a non-empty code hash. -/
theorem fullAccount_slim_roundtrip (a : StateAccount)
    (hnonce : a.nonce < 2 ^ 64) (hbal : a.balance < 2 ^ 256)
    (hroot : a.root.length = 32) (hch : a.codeHash ≠ [])
    (hchlen : a.codeHash.length < 2 ^ 32) :
    FullAccount (SlimAccountRLP a) = some a := by
  rw [FullAccount]
  rw [decodeSlim_roundtrip a hnonce hbal hroot hchlen]
  simp only [Option.bind_eq_bind, Option.some_bind]
  have hrootne : a.root ≠ [] := by
    intro hnil
    rw [hnil] at hroot
    simp at hroot
  have hrootcase : (if (if a.root = emptyRootHash then ([] : List Nat) else a.root).isEmpty
      then emptyRootHash else bytesToHash32 (if a.root = emptyRootHash then [] else a.root)) = a.root := by
    by_cases hr : a.root = emptyRootHash
    · simp [hr]
    · rw [if_neg hr]
      have : a.root.isEmpty = false := by
        cases hcc : a.root
        · exact absurd hcc hrootne
        · rfl
      rw [this]
      simp [bytesToHash32_of_len32 a.root hroot]
  have hchcase : (if (if a.codeHash = emptyCodeHash then ([] : List Nat) else a.codeHash).isEmpty
      then emptyCodeHash else (if a.codeHash = emptyCodeHash then [] else a.codeHash)) = a.codeHash := by
    by_cases hc : a.codeHash = emptyCodeHash
    · simp [hc]
    · rw [if_neg hc]
      have : a.codeHash.isEmpty = false := by
        cases hcc : a.codeHash
        · exact absurd hcc hch
        · rfl
      rw [this]
      simp
  rw [hrootcase, hchcase]

/-- C6 counterexample: for the account with nonce 0, balance 0, empty root
and an empty-slice code hash, re-encoding the decoded slim form differs
from the rlp of the account: the empty code hash slice survives into the
slim form, and FullAccount maps it to the 32-byte empty code hash, whose
rlp is not the empty string. -/
theorem c6_slim_roundtrip_counterexample :
    FullAccountRLP (SlimAccountRLP
      { nonce := 0, balance := 0, root := emptyRootHash, codeHash := [] }) ≠
    some (rlpStateAccount
      { nonce := 0, balance := 0, root := emptyRootHash, codeHash := [] }) := by
  decide

/-- C6 amended: for every well-formed state account (uint64 nonce, balance
below 2 ^ 256, 32-byte root, non-empty code hash of length below 2 ^ 32),
FullAccount of SlimAccountRLP recovers the account exactly — the nil slim
root and code hash map back to the empty-trie root and the empty-code hash
— and FullAccountRLP of SlimAccountRLP equals the rlp of the account. -/
theorem c6_slim_roundtrip_amended (a : StateAccount)
    (hnonce : a.nonce < 2 ^ 64) (hbal : a.balance < 2 ^ 256)
    (hroot : a.root.length = 32) (hch : a.codeHash ≠ [])
    (hchlen : a.codeHash.length < 2 ^ 32) :
    FullAccount (SlimAccountRLP a) = some a ∧
    FullAccountRLP (SlimAccountRLP a) = some (rlpStateAccount a) := by
  have h := fullAccount_slim_roundtrip a hnonce hbal hroot hch hchlen
  refine ⟨h, ?_⟩
  rw [FullAccountRLP, h]
  rfl

def demoAccount : StateAccount :=
  { nonce := 1, balance := 1000, root := emptyRootHash,
    codeHash := emptyCodeHash }

/-- C6 witness: the amended round trip applied at a concrete account. -/
theorem c6_slim_roundtrip_amended_witness :
    FullAccount (SlimAccountRLP demoAccount) = some demoAccount ∧
    FullAccountRLP (SlimAccountRLP demoAccount) =
      some (rlpStateAccount demoAccount) :=
  c6_slim_roundtrip_amended demoAccount (by decide) (by decide) (by decide)
    (by decide) (by decide)

/-! ### onHealState (C10)

The heal-stage flat-state callback.  The shared stateWriter batch is
modelled as a buffer of snapshot writes with a byte-size counter (the batch
ValueSize of the collaborator is approximated by key plus value bytes); its
flush appends the buffer to the flushed list.  The decode-failure path of a
single-segment (account) heal returns nil early, before the flush check,
writing nothing and bumping no counter. -/

inductive SnapWrite where
  | account (accHash : List Nat) (blob : List Nat)
  | storage (accHash : List Nat) (slotHash : List Nat) (value : List Nat)
deriving DecidableEq

structure HealWriteState where
  writerBuf : List SnapWrite
  writerSize : Nat
  flushedWrites : List SnapWrite
  accountHealed : Nat
  accountHealedBytes : Nat
  storageHealed : Nat
  storageHealedBytes : Nat
deriving DecidableEq

def idealBatchSize : Nat := 100 * 1024

def hashLength : Nat := 32

def initialHealState : HealWriteState :=
  { writerBuf := [], writerSize := 0, flushedWrites := [],
    accountHealed := 0, accountHealedBytes := 0, storageHealed := 0,
    storageHealedBytes := 0 }

/-- The single-path (account) branch of onHealState: none models the early
return nil taken when the value fails to decode as a state account. -/
def onHealStateStep1 (paths : List (List Nat)) (value : List Nat)
    (st : HealWriteState) : Option HealWriteState :=
  if paths.length = 1 then
    match decodeStateAccount value with
    | none => none
    | some account =>
      let blob := SlimAccountRLP account
      some { st with
        writerBuf := st.writerBuf ++ [SnapWrite.account (paths.headD []) blob],
        writerSize := st.writerSize + hashLength + blob.length,
        accountHealed := st.accountHealed + 1,
        accountHealedBytes := st.accountHealedBytes + (1 + hashLength + blob.length) }
  else some st

/-- onHealState: account heal on one path segment, storage heal on two,
then a flush when the batch exceeds IdealBatchSize; every exit returns nil
(none as the error component). -/
def onHealState (paths : List (List Nat)) (value : List Nat)
    (st : HealWriteState) : HealWriteState × Option Unit :=
  match onHealStateStep1 paths value st with
  | none => (st, none)
  | some st1 =>
    let st2 :=
      if paths.length = 2 then
        { st1 with
          writerBuf := st1.writerBuf ++
            [SnapWrite.storage (paths.headD []) (paths.getD 1 []) value],
          writerSize := st1.writerSize + 2 * hashLength + value.length,
          storageHealed := st1.storageHealed + 1,
          storageHealedBytes := st1.storageHealedBytes + (1 + 2 * hashLength + value.length) }
      else st1
    let st3 :=
      if idealBatchSize < st2.writerSize then
        { st2 with flushedWrites := st2.flushedWrites ++ st2.writerBuf,
                   writerBuf := [], writerSize := 0 }
      else st2
    (st3, none)

/-- C10: onHealState never returns a non-nil error, and when the path list
has a single segment and the value fails to decode as an rlp state account
the call is a silent no-op: no write is buffered or flushed and no healed
counter changes. -/
theorem c10_onHealState_never_errors (paths : List (List Nat)) (value : List Nat)
    (st : HealWriteState) :
    (onHealState paths value st).2 = none ∧
    (paths.length = 1 → decodeStateAccount value = none →
      (onHealState paths value st).1 = st) := by
  constructor
  · rw [onHealState]
    cases onHealStateStep1 paths value st
    · rfl
    · simp
  · intro hlen hdec
    rw [onHealState]
    have hstep : onHealStateStep1 paths value st = none := by
      rw [onHealStateStep1, if_pos hlen, hdec]
    rw [hstep]

/-- C10 witness: the theorem applied at a one-segment path with an
undecodable (empty) value on the initial heal state. -/
theorem c10_onHealState_never_errors_witness :
    (onHealState [[1]] [] initialHealState).2 = none ∧
    (onHealState [[1]] [] initialHealState).1 = initialHealState :=
  ⟨(c10_onHealState_never_errors [[1]] [] initialHealState).1,
   (c10_onHealState_never_errors [[1]] [] initialHealState).2 rfl rfl⟩

/-! ### Heal-request ordering (C7): healRequestSort and sortByAccountPath

A sync path (trie.SyncPath) has one segment for an account-trie node, or
two segments (compacted account path, compacted storage path) for a
storage-trie node; trie.NewSyncPath builds it from the raw nibble path with
the compact (hex-prefix) encoding.  healRequestSort.Less orders requests by
first segment (bytes.Compare), then one-segment before two-segment, then by
second segment; Merge groups consecutive two-segment paths sharing a first
segment into one TrieNodePathSet. -/

inductive SyncPathM where
  | acct (first : List Nat)
  | stor (first second : List Nat)
deriving DecidableEq

def SyncPathM.firstSeg : SyncPathM → List Nat
  | SyncPathM.acct a => a
  | SyncPathM.stor a _ => a

/-- bytes.Compare: lexicographic comparison with the shorter prefix first. -/
def segCompare : List Nat → List Nat → Ordering
  | [], [] => Ordering.eq
  | [], _ :: _ => Ordering.lt
  | _ :: _, [] => Ordering.gt
  | a :: as, b :: bs =>
    if a < b then Ordering.lt
    else if b < a then Ordering.gt
    else segCompare as bs

/-- healRequestSort.Less on sync paths: first segments by bytes.Compare; on
equal first segments the shorter path first; two two-segment paths by the
second segment. -/
def spLess (x y : SyncPathM) : Bool :=
  match segCompare x.firstSeg y.firstSeg with
  | Ordering.lt => true
  | Ordering.gt => false
  | Ordering.eq =>
    match x, y with
    | SyncPathM.acct _, SyncPathM.stor _ _ => true
    | SyncPathM.stor _ _, SyncPathM.acct _ => false
    | SyncPathM.acct _, SyncPathM.acct _ => false
    | SyncPathM.stor _ xs, SyncPathM.stor _ ys =>
      match segCompare xs ys with
      | Ordering.lt => true
      | _ => false

theorem segCompare_eq_iff : ∀ x y : List Nat, segCompare x y = Ordering.eq ↔ x = y := by
  intro x
  induction x with
  | nil =>
    intro y
    cases y with
    | nil => simp [segCompare]
    | cons b bs => simp [segCompare]
  | cons a as ih =>
    intro y
    cases y with
    | nil => simp [segCompare]
    | cons b bs =>
      by_cases hab : a < b
      · rw [segCompare, if_pos hab]
        constructor
        · intro h; cases h
        · intro h
          injection h with h1 _
          omega
      · by_cases hba : b < a
        · rw [segCompare, if_neg hab, if_pos hba]
          constructor
          · intro h; cases h
          · intro h
            injection h with h1 _
            omega
        · have hEq : a = b := by omega
          subst hEq
          rw [segCompare, if_neg hab, if_neg hba, ih bs]
          simp

theorem segCompare_swap : ∀ x y : List Nat, segCompare y x = (segCompare x y).swap := by
  intro x
  induction x with
  | nil =>
    intro y
    cases y <;> rfl
  | cons a as ih =>
    intro y
    cases y with
    | nil => rfl
    | cons b bs =>
      by_cases hab : a < b
      · have hba : ¬ b < a := by omega
        rw [segCompare, if_neg hba, if_pos hab, segCompare, if_pos hab]
        rfl
      · by_cases hba : b < a
        · rw [segCompare, if_pos hba, segCompare, if_neg hab, if_pos hba]
          rfl
        · rw [segCompare, if_neg hba, if_neg hab, segCompare, if_neg hab, if_neg hba]
          exact ih bs

theorem segCompare_lt_trans : ∀ x y z : List Nat,
    segCompare x y = Ordering.lt → segCompare y z = Ordering.lt →
    segCompare x z = Ordering.lt := by
  intro x
  induction x with
  | nil =>
    intro y z hxy hyz
    cases z with
    | nil =>
      cases y with
      | nil => cases hxy
      | cons b bs =>
        rw [segCompare] at hyz
        cases hyz
    | cons c cs => rfl
  | cons a as ih =>
    intro y z hxy hyz
    cases y with
    | nil =>
      rw [segCompare] at hxy
      cases hxy
    | cons b bs =>
      cases z with
      | nil =>
        rw [segCompare] at hyz
        cases hyz
      | cons c cs =>
        by_cases hab : a < b
        · by_cases hbc : b < c
          · have hac : a < c := by omega
            rw [segCompare, if_pos hac]
          · by_cases hcb : c < b
            · rw [segCompare, if_neg hbc, if_pos hcb] at hyz
              cases hyz
            · have hbc2 : b = c := by omega
              subst hbc2
              rw [segCompare, if_pos hab]
        · by_cases hba : b < a
          · rw [segCompare, if_neg hab, if_pos hba] at hxy
            cases hxy
          · have hab2 : a = b := by omega
            subst hab2
            rw [segCompare, if_neg hab, if_neg hba] at hxy
            by_cases hac : a < c
            · rw [segCompare, if_pos hac]
            · by_cases hca : c < a
              · rw [segCompare, if_neg hac, if_pos hca] at hyz
                cases hyz
              · have hac2 : a = c := by omega
                subst hac2
                rw [segCompare, if_neg hac, if_neg hca] at hyz
                rw [segCompare, if_neg hac, if_neg hca]
                exact ih bs cs hxy hyz

theorem segCompare_gt_iff : ∀ x y : List Nat,
    segCompare x y = Ordering.gt ↔ segCompare y x = Ordering.lt := by
  intro x y
  rw [segCompare_swap y x]
  cases h : segCompare y x <;> simp [Ordering.swap]

theorem spLess_of_first_lt (x y : SyncPathM)
    (h : segCompare x.firstSeg y.firstSeg = Ordering.lt) : spLess x y = true := by
  rw [spLess.eq_def, h]

theorem spLess_false_of_first_gt (x y : SyncPathM)
    (h : segCompare x.firstSeg y.firstSeg = Ordering.gt) : spLess x y = false := by
  rw [spLess.eq_def, h]

theorem spLess_asymm (x y : SyncPathM) (h : spLess x y = true) : spLess y x = false := by
  cases hc : segCompare x.firstSeg y.firstSeg with
  | lt =>
    apply spLess_false_of_first_gt
    rw [segCompare_gt_iff]
    exact hc
  | gt =>
    rw [spLess_false_of_first_gt x y hc] at h
    cases h
  | eq =>
    have hc2 : segCompare y.firstSeg x.firstSeg = Ordering.eq := by
      rw [segCompare_swap, hc]
      rfl
    rw [spLess.eq_def, hc] at h
    rw [spLess.eq_def, hc2]
    cases x with
    | acct a =>
      cases y with
      | acct b => cases h
      | stor b s => rfl
    | stor a s =>
      cases y with
      | acct b => cases h
      | stor b t =>
        dsimp only at h ⊢
        cases hst : segCompare s t with
        | lt =>
          have hts : segCompare t s = Ordering.gt := by
            rw [segCompare_gt_iff]
            exact hst
          rw [hts]
        | eq =>
          rw [hst] at h
          simp at h
        | gt =>
          rw [hst] at h
          simp at h

theorem spLess_connected (z y x : SyncPathM) (h : spLess z x = true) :
    spLess z y = true ∨ spLess y x = true := by
  cases hzy : segCompare z.firstSeg y.firstSeg with
  | lt => exact Or.inl (spLess_of_first_lt z y hzy)
  | gt =>
    cases hyx : segCompare y.firstSeg x.firstSeg with
    | lt => exact Or.inr (spLess_of_first_lt y x hyx)
    | gt =>
      have h1 : segCompare x.firstSeg y.firstSeg = Ordering.lt := by
        rw [← segCompare_gt_iff]
        exact hyx
      have h2 : segCompare y.firstSeg z.firstSeg = Ordering.lt := by
        rw [← segCompare_gt_iff]
        exact hzy
      have h3 : segCompare x.firstSeg z.firstSeg = Ordering.lt :=
        segCompare_lt_trans _ _ _ h1 h2
      have h4 : segCompare z.firstSeg x.firstSeg = Ordering.gt := by
        rw [segCompare_gt_iff]
        exact h3
      rw [spLess_false_of_first_gt z x h4] at h
      cases h
    | eq =>
      have hyx2 : y.firstSeg = x.firstSeg := (segCompare_eq_iff _ _).mp hyx
      have h4 : segCompare z.firstSeg x.firstSeg = Ordering.gt := by
        rw [← hyx2]
        exact hzy
      rw [spLess_false_of_first_gt z x h4] at h
      cases h
  | eq =>
    have hzy2 : z.firstSeg = y.firstSeg := (segCompare_eq_iff _ _).mp hzy
    cases hyx : segCompare y.firstSeg x.firstSeg with
    | lt => exact Or.inr (spLess_of_first_lt y x hyx)
    | gt =>
      have h4 : segCompare z.firstSeg x.firstSeg = Ordering.gt := by
        rw [hzy2]
        exact hyx
      rw [spLess_false_of_first_gt z x h4] at h
      cases h
    | eq =>
      have hyx2 : y.firstSeg = x.firstSeg := (segCompare_eq_iff _ _).mp hyx
      have hzx : segCompare z.firstSeg x.firstSeg = Ordering.eq := by
        rw [hzy2, hyx2]
        rw [segCompare_eq_iff]
      rw [spLess.eq_def, hzx] at h
      have hzyeq : segCompare z.firstSeg y.firstSeg = Ordering.eq := hzy
      have hyxeq : segCompare y.firstSeg x.firstSeg = Ordering.eq := hyx
      cases z with
      | acct az =>
        cases x with
        | acct ax => cases h
        | stor ax sx =>
          cases y with
          | acct ay =>
            right
            rw [spLess.eq_def, hyxeq]
          | stor ay sy =>
            left
            rw [spLess.eq_def, hzyeq]
      | stor az sz =>
        cases x with
        | acct ax => cases h
        | stor ax sx =>
          dsimp only at h
          cases y with
          | acct ay =>
            right
            rw [spLess.eq_def, hyxeq]
          | stor ay sy =>
            cases hzx2 : segCompare sz sx with
            | lt =>
              cases hzy3 : segCompare sz sy with
              | lt =>
                left
                rw [spLess.eq_def, hzyeq]
                dsimp only
                rw [hzy3]
              | eq =>
                have hse : sz = sy := (segCompare_eq_iff _ _).mp hzy3
                subst hse
                right
                rw [spLess.eq_def, hyxeq]
                dsimp only
                rw [hzx2]
              | gt =>
                have h5 : segCompare sy sz = Ordering.lt := by
                  rw [← segCompare_gt_iff]
                  exact hzy3
                have h6 : segCompare sy sx = Ordering.lt :=
                  segCompare_lt_trans _ _ _ h5 hzx2
                right
                rw [spLess.eq_def, hyxeq]
                dsimp only
                rw [h6]
            | eq =>
              rw [hzx2] at h
              simp at h
            | gt =>
              rw [hzx2] at h
              simp at h

/-! ### Compact path encoding (collaborators trie.NewSyncPath, hexToCompact
and hexToKeybytes) -/

/-- Whether a nibble path carries the terminator nibble 16 at its end. -/
def hasTerm (hex : List Nat) : Bool := hex.getLast? == some 16

/-- decodeNibbles: pack nibble pairs into bytes (byte conversion truncates
modulo 256). -/
def packNibbles : List Nat → List Nat
  | n1 :: n2 :: rest => ((n1 <<< 4) ||| n2) % 256 :: packNibbles rest
  | _ => []

/-- The core of hexToCompact once the terminator has been stripped: the
flag byte (terminator bit 0x20; for an odd nibble count the odd bit 0x10
and the FIRST nibble), then the remaining nibbles packed pairwise. -/
def compactCore (term : Nat) (hex1 : List Nat) : List Nat :=
  if hex1.length % 2 = 1 then
    ((term <<< 5) ||| (1 <<< 4) ||| hex1.headD 0) :: packNibbles hex1.tail
  else
    (term <<< 5) :: packNibbles hex1

/-- hexToCompact: strip a terminator, then emit flag byte and packed
nibbles. -/
def hexToCompact (hex0 : List Nat) : List Nat :=
  if hasTerm hex0 then compactCore 1 hex0.dropLast else compactCore 0 hex0

/-- hexToKeybytes: strip a terminator and pack the nibbles into raw key
bytes, no flag byte.  The source panics when the remaining nibble count is
odd; within newSyncPath that is only reachable for a 64-nibble path ending
in the terminator, an input every theorem below excludes (on it the Go
sortByAccountPath crashes rather than returns); the model packs the nibble
pairs there. -/
def hexToKeybytes (hex : List Nat) : List Nat :=
  if hasTerm hex then packNibbles hex.dropLast else packNibbles hex

/-- trie.NewSyncPath: one compacted segment for paths below 64 nibbles,
otherwise the raw key bytes of the account half (hexToKeybytes) and the
compacted storage half. -/
def newSyncPath (path : List Nat) : SyncPathM :=
  if path.length < 64 then SyncPathM.acct (hexToCompact path)
  else SyncPathM.stor (hexToKeybytes (path.take 64)) (hexToCompact (path.drop 64))

theorem getLast?_mem_self {β : Type} : ∀ (l : List β) (x : β), l.getLast? = some x → x ∈ l
  | [], x, h => by cases h
  | [a], x, h => by
    simp [List.getLast?] at h
    simp [h]
  | a :: b :: t, x, h => by
    rw [List.getLast?_cons_cons] at h
    exact List.mem_cons_of_mem a (getLast?_mem_self (b :: t) x h)

theorem getLast?_decomp {β : Type} : ∀ (l : List β) (x : β), l.getLast? = some x →
    l = l.dropLast ++ [x]
  | [], x, h => by cases h
  | [a], x, h => by
    simp [List.getLast?] at h
    simp [h]
  | a :: b :: t, x, h => by
    rw [List.getLast?_cons_cons] at h
    have := getLast?_decomp (b :: t) x h
    calc a :: b :: t = a :: ((b :: t).dropLast ++ [x]) := by rw [← this]
    _ = (a :: b :: t).dropLast ++ [x] := by simp [List.dropLast]

theorem getLast?_none_iff {β : Type} : ∀ l : List β, l.getLast? = none ↔ l = [] := by
  intro l
  cases l with
  | nil => simp
  | cons a t =>
    constructor
    · intro h
      cases ht : (a :: t).getLast? with
      | none =>
        rcases t with _ | ⟨b, u⟩
        · simp [List.getLast?] at ht
        · rw [List.getLast?_cons_cons] at ht
          have : (b :: u) = [] := by
            rcases hu : (b :: u).getLast? with _ | x
            · exact ((getLast?_none_iff (b :: u)).mp hu)
            · rw [hu] at ht; cases ht
          cases this
      | some x => rw [ht] at h; cases h
    · intro h; cases h

/-! ### Node path validity

A trie node path is a string of nibbles (each below 16), with at most a
final terminator nibble 16. -/

def validNodePath (p : List Nat) : Prop :=
  (∀ b ∈ p.dropLast, b < 16) ∧ p.getLast?.getD 0 ≤ 16

instance (p : List Nat) : Decidable (validNodePath p) := by
  unfold validNodePath
  infer_instance

/-! ### The sort relation, Merge and sortByAccountPath -/

/-- The ordering used by sort.Sort for the parallel arrays of
healRequestSort: an entry (path, hash) precedes another when the latter is
not strictly less by healRequestSort.Less on the derived sync paths. -/
def entryLE (x y : List Nat × Nat) : Prop :=
  spLess (newSyncPath y.1) (newSyncPath x.1) = false

instance : DecidableRel entryLE := fun x y => by
  unfold entryLE
  infer_instance

instance : IsTotal (List Nat × Nat) entryLE := by
  constructor
  intro x y
  by_cases h : spLess (newSyncPath y.1) (newSyncPath x.1) = true
  · right
    exact spLess_asymm _ _ h
  · left
    show spLess (newSyncPath y.1) (newSyncPath x.1) = false
    cases hb : spLess (newSyncPath y.1) (newSyncPath x.1)
    · rfl
    · exact absurd hb h

instance : IsTrans (List Nat × Nat) entryLE := by
  constructor
  intro x y z hxy hyz
  show spLess (newSyncPath z.1) (newSyncPath x.1) = false
  cases hzx : spLess (newSyncPath z.1) (newSyncPath x.1)
  · rfl
  · rcases spLess_connected (newSyncPath z.1) (newSyncPath y.1) (newSyncPath x.1) hzx
      with h1 | h2
    · cases h1.symm.trans hyz
    · cases h2.symm.trans hxy

/-- healRequestSort.Merge, one step: an account reference always opens its
own path set; a storage reference joins the last set when the first
segments coincide, otherwise it opens a new set. -/
def mergeStep (result : List (List (List Nat))) (p : SyncPathM) : List (List (List Nat)) :=
  match p with
  | SyncPathM.acct a => result ++ [[a]]
  | SyncPathM.stor a s =>
    match result.getLast? with
    | none => result ++ [[a, s]]
    | some lastSet =>
      if lastSet.headD [] = a then result.dropLast ++ [lastSet ++ [s]]
      else result ++ [[a, s]]

/-- healRequestSort.Merge over the sorted sync paths. -/
def mergePathSets (l : List SyncPathM) : List (List (List Nat)) :=
  l.foldl mergeStep []

/-- The sync paths represented by one TrieNodePathSet: a singleton is an
account reference, a longer set pairs its head with each storage path. -/
def unmergeSet : List (List Nat) → List SyncPathM
  | [] => []
  | [a] => [SyncPathM.acct a]
  | a :: rest => rest.map (SyncPathM.stor a)

def unmergePathSets (l : List (List (List Nat))) : List SyncPathM :=
  (l.map unmergeSet).flatten

/-- Invariant of the Merge fold: the accumulated path sets decode exactly
to the processed prefix, and every set is a singleton from an account
reference or a storage group headed by a first segment of a processed
storage reference. -/
def mergeInv (processed : List SyncPathM) (acc : List (List (List Nat))) : Prop :=
  unmergePathSets acc = processed ∧
  ∀ set ∈ acc, (∃ a, set = [a] ∧ SyncPathM.acct a ∈ processed) ∨
    (∃ a s rest, set = a :: s :: rest ∧ SyncPathM.stor a s ∈ processed)

theorem unmergePathSets_append (l1 l2 : List (List (List Nat))) :
    unmergePathSets (l1 ++ l2) = unmergePathSets l1 ++ unmergePathSets l2 := by
  simp [unmergePathSets, List.map_append, List.flatten_append]

theorem unmergeSet_single (a : List Nat) : unmergeSet [a] = [SyncPathM.acct a] := rfl

theorem unmergeSet_group (a s : List Nat) (rest : List (List Nat)) :
    unmergeSet (a :: s :: rest) = (s :: rest).map (SyncPathM.stor a) := rfl

theorem mem_dropLast_mem {β : Type} : ∀ (l : List β) (x : β), x ∈ l.dropLast → x ∈ l := by
  intro l x hx
  exact (List.dropLast_sublist l).subset hx

theorem mergeStep_inv (processed : List SyncPathM) (acc : List (List (List Nat)))
    (p : SyncPathM)
    (hdisj : ∀ a s, p = SyncPathM.stor a s →
      ∀ x, SyncPathM.acct x ∈ processed → x ≠ a)
    (hinv : mergeInv processed acc) :
    mergeInv (processed ++ [p]) (mergeStep acc p) := by
  rcases hinv with ⟨hun, hsets⟩
  cases p with
  | acct a =>
    constructor
    · rw [mergeStep, unmergePathSets_append, hun]
      rfl
    · intro set hset
      rcases List.mem_append.mp hset with h1 | h2
      · rcases hsets set h1 with ⟨b, hb1, hb2⟩ | ⟨b, s, rest, hb1, hb2⟩
        · exact Or.inl ⟨b, hb1, List.mem_append_left _ hb2⟩
        · exact Or.inr ⟨b, s, rest, hb1, List.mem_append_left _ hb2⟩
      · rcases List.mem_singleton.mp h2 with rfl
        exact Or.inl ⟨a, rfl, List.mem_append_right _ (List.mem_singleton.mpr rfl)⟩
  | stor a s =>
    have hstep : mergeStep acc (SyncPathM.stor a s) =
        (match acc.getLast? with
         | none => acc ++ [[a, s]]
         | some lastSet =>
           if lastSet.headD [] = a then acc.dropLast ++ [lastSet ++ [s]]
           else acc ++ [[a, s]]) := rfl
    cases hlast : acc.getLast? with
    | none =>
      have hacc : acc = [] := (getLast?_none_iff acc).mp hlast
      subst hacc
      have hproc : processed = [] := by rw [← hun]; rfl
      subst hproc
      rw [hstep]
      constructor
      · rfl
      · intro set hset
        have hset2 : set ∈ [[a, s]] := hset
        rcases List.mem_singleton.mp hset2 with rfl
        exact Or.inr ⟨a, s, [], rfl, by simp⟩
    | some lastSet =>
      rw [hstep, hlast]
      show mergeInv (processed ++ [SyncPathM.stor a s])
        (if lastSet.headD [] = a then acc.dropLast ++ [lastSet ++ [s]]
         else acc ++ [[a, s]])
      have hdecomp : acc = acc.dropLast ++ [lastSet] := getLast?_decomp acc lastSet hlast
      have hmem : lastSet ∈ acc := getLast?_mem_self acc lastSet hlast
      by_cases hhead : lastSet.headD [] = a
      · rw [if_pos hhead]
        rcases hsets lastSet hmem with ⟨b, hb1, hb2⟩ | ⟨b, t, rest, hb1, hb2⟩
        · have hba : b = a := by
            rw [hb1] at hhead
            simpa using hhead
          subst hba
          exact absurd rfl (hdisj b s rfl b hb2)
        · have hba : b = a := by
            rw [hb1] at hhead
            simpa using hhead
          subst hba
          have hacc2 : unmergePathSets acc =
              unmergePathSets acc.dropLast ++ unmergeSet lastSet := by
            conv_lhs => rw [hdecomp]
            rw [unmergePathSets_append]
            congr 1
            simp [unmergePathSets]
          have hunold : unmergePathSets acc.dropLast ++ unmergeSet lastSet = processed := by
            rw [← hacc2, hun]
          constructor
          · rw [unmergePathSets_append]
            have hnew : unmergeSet (lastSet ++ [s]) =
                unmergeSet lastSet ++ [SyncPathM.stor b s] := by
              rw [hb1]
              show unmergeSet (b :: t :: (rest ++ [s])) = _
              rw [unmergeSet_group, unmergeSet_group]
              simp
            have hone : unmergePathSets [lastSet ++ [s]] = unmergeSet (lastSet ++ [s]) := by
              simp [unmergePathSets]
            rw [hone, hnew, ← List.append_assoc, hunold]
          · intro set hset
            rcases List.mem_append.mp hset with h1 | h2
            · have h1acc : set ∈ acc := mem_dropLast_mem acc set h1
              rcases hsets set h1acc with ⟨c, hc1, hc2⟩ | ⟨c, u, rest2, hc1, hc2⟩
              · exact Or.inl ⟨c, hc1, List.mem_append_left _ hc2⟩
              · exact Or.inr ⟨c, u, rest2, hc1, List.mem_append_left _ hc2⟩
            · rcases List.mem_singleton.mp h2 with rfl
              refine Or.inr ⟨b, t, rest ++ [s], ?_, List.mem_append_left _ hb2⟩
              rw [hb1]
              simp
      · rw [if_neg hhead]
        constructor
        · rw [unmergePathSets_append, hun]
          rfl
        · intro set hset
          rcases List.mem_append.mp hset with h1 | h2
          · rcases hsets set h1 with ⟨c, hc1, hc2⟩ | ⟨c, u, rest2, hc1, hc2⟩
            · exact Or.inl ⟨c, hc1, List.mem_append_left _ hc2⟩
            · exact Or.inr ⟨c, u, rest2, hc1, List.mem_append_left _ hc2⟩
          · rcases List.mem_singleton.mp h2 with rfl
            exact Or.inr ⟨a, s, [], rfl, List.mem_append_right _ (by simp)⟩

theorem mergeFold_inv : ∀ (todo processed : List SyncPathM) (acc : List (List (List Nat))),
    (∀ a b s, SyncPathM.acct a ∈ processed ++ todo →
      SyncPathM.stor b s ∈ processed ++ todo → a ≠ b) →
    mergeInv processed acc →
    mergeInv (processed ++ todo) (todo.foldl mergeStep acc) := by
  intro todo
  induction todo with
  | nil =>
    intro processed acc _ hinv
    simpa using hinv
  | cons p rest ih =>
    intro processed acc hdisj hinv
    have heq : (processed ++ [p]) ++ rest = processed ++ p :: rest := by simp
    have hd : ∀ a s, p = SyncPathM.stor a s →
        ∀ x, SyncPathM.acct x ∈ processed → x ≠ a := by
      intro a s hp x hx
      refine hdisj x a s (List.mem_append_left _ hx) ?_
      apply List.mem_append_right
      rw [← hp]
      exact List.mem_cons_self p rest
    have hstep := mergeStep_inv processed acc p hd hinv
    have hdisj2 : ∀ a b s, SyncPathM.acct a ∈ (processed ++ [p]) ++ rest →
        SyncPathM.stor b s ∈ (processed ++ [p]) ++ rest → a ≠ b := by
      rw [heq]
      exact hdisj
    have := ih (processed ++ [p]) (mergeStep acc p) hdisj2 hstep
    rw [heq] at this
    exact this

theorem mergePathSets_unmerge (l : List SyncPathM)
    (hdisj : ∀ a b s, SyncPathM.acct a ∈ l → SyncPathM.stor b s ∈ l → a ≠ b) :
    mergeInv l (mergePathSets l) := by
  have hbase : mergeInv [] [] := by
    constructor
    · rfl
    · intro set hset
      cases hset
  have := mergeFold_inv l [] [] (by simpa using hdisj) hbase
  simpa using this

theorem zipFstSnd {β γ : Type} : ∀ l : List (β × γ), (l.map Prod.fst).zip (l.map Prod.snd) = l
  | [] => rfl
  | (a, b) :: t => by
    rw [List.map_cons, List.map_cons, List.zip_cons_cons, zipFstSnd t]

theorem newSyncPath_acct_inv (p a : List Nat)
    (h : newSyncPath p = SyncPathM.acct a) : p.length < 64 ∧ a = hexToCompact p := by
  rw [newSyncPath] at h
  by_cases hl : p.length < 64
  · rw [if_pos hl] at h
    injection h with h1
    exact ⟨hl, h1.symm⟩
  · rw [if_neg hl] at h
    cases h

theorem newSyncPath_stor_inv (q b s : List Nat)
    (h : newSyncPath q = SyncPathM.stor b s) :
    64 ≤ q.length ∧ b = hexToKeybytes (q.take 64) := by
  rw [newSyncPath] at h
  by_cases hl : q.length < 64
  · rw [if_pos hl] at h
    cases h
  · rw [if_neg hl] at h
    injection h with h1 _
    exact ⟨by omega, h1.symm⟩

/-- sortByAccountPath: zip the parallel paths and hashes arrays (the source
sorts the three arrays in lockstep via healRequestSort.Swap; sort.Sort is
modelled by insertion sort — every property proved below is invariant under
the choice of comparator-consistent sort), sort by healRequestSort.Less on
the derived sync paths, then build the merged TrieNodePathSets. -/
def sortByAccountPath (paths : List (List Nat)) (hashes : List Nat) :
    List (List Nat) × List Nat × List SyncPathM × List (List (List Nat)) :=
  let sorted := List.insertionSort entryLE (paths.zip hashes)
  let sps := sorted.map (fun e => newSyncPath e.1)
  (sorted.map Prod.fst, sorted.map Prod.snd, sps, mergePathSets sps)

/-- A 63-nibble account-node path whose compact encoding (flag byte 0x10
followed by 31 packed zero bytes) coincides with the raw key bytes of the
account half of the storage path below. -/
def cexAcctPath : List Nat := List.replicate 63 0

/-- A 65-nibble storage-node path: its first 64 nibbles pack to the same 32
bytes 0x10 00 ... 00 that cexAcctPath compacts to. -/
def cexStorPath : List Nat := (1 :: List.replicate 63 0) ++ [5]

def cexPaths : List (List Nat) := [cexAcctPath, cexStorPath]

def cexHashes : List Nat := [7, 8]

/-- C7 counterexample: both paths are valid trie node paths and neither
triggers the hexToKeybytes odd-length crash (no 64-nibble path ends in the
terminator), yet the merged TrieNodePathSets do not decode back to the
sorted sync paths: the compacted account-node segment equals the raw
account key of the storage path, the two sort as equal, and Merge absorbs
the account reference into the storage path set, so the account (path,
hash) pair is no longer covered by any set. -/
theorem c7_sortByAccountPath_counterexample :
    (∀ p ∈ cexPaths, validNodePath p) ∧
    (∀ p ∈ cexPaths, p.length = 64 → p.getLast?.getD 0 ≠ 16) ∧
    SyncPathM.acct (hexToCompact cexAcctPath) ∈ (sortByAccountPath cexPaths cexHashes).2.2.1 ∧
    SyncPathM.acct (hexToCompact cexAcctPath) ∉
      unmergePathSets (sortByAccountPath cexPaths cexHashes).2.2.2 ∧
    unmergePathSets (sortByAccountPath cexPaths cexHashes).2.2.2 ≠
      (sortByAccountPath cexPaths cexHashes).2.2.1 := by
  decide

/-- C7, amended: for heal paths that are valid trie node paths, none of
which is a 64-nibble path ending in the terminator (there hexToKeybytes
crashes in the source), and whose one-segment compact encodings never
collide with the raw account key of a two-segment path, sortByAccountPath
returns the same (path, hash) pairs in an order sorted by the
healRequestSort.Less total order; the returned sync paths are those of the
sorted paths; and the merged TrieNodePathSets decode back to exactly the
sorted sync paths (each set non-empty, a singleton for an account
reference, otherwise the shared account path followed by its storage
paths). -/
theorem c7_sortByAccountPath_amended (paths : List (List Nat)) (hashes : List Nat)
    (hvalid : ∀ p ∈ paths, validNodePath p)
    (hterm : ∀ p ∈ paths, p.length = 64 → p.getLast?.getD 0 ≠ 16)
    (hdisj : ∀ p ∈ paths, ∀ q ∈ paths, p.length < 64 → 64 ≤ q.length →
      hexToCompact p ≠ hexToKeybytes (q.take 64)) :
    ((sortByAccountPath paths hashes).1.zip
        (sortByAccountPath paths hashes).2.1).Perm (paths.zip hashes) ∧
    List.Pairwise entryLE
      ((sortByAccountPath paths hashes).1.zip (sortByAccountPath paths hashes).2.1) ∧
    (sortByAccountPath paths hashes).2.2.1 =
      (sortByAccountPath paths hashes).1.map newSyncPath ∧
    unmergePathSets (sortByAccountPath paths hashes).2.2.2 =
      (sortByAccountPath paths hashes).2.2.1 ∧
    ∀ set ∈ (sortByAccountPath paths hashes).2.2.2, set ≠ [] := by
  have hzip : ((sortByAccountPath paths hashes).1.zip
      (sortByAccountPath paths hashes).2.1) =
      List.insertionSort entryLE (paths.zip hashes) :=
    zipFstSnd (List.insertionSort entryLE (paths.zip hashes))
  have hmemsps : ∀ x ∈ (sortByAccountPath paths hashes).2.2.1,
      ∃ p, p ∈ paths ∧ newSyncPath p = x := by
    intro x hx
    have hx2 : x ∈ (List.insertionSort entryLE (paths.zip hashes)).map
        (fun e => newSyncPath e.1) := hx
    rcases List.mem_map.mp hx2 with ⟨e, he, hxe⟩
    have he2 : e ∈ paths.zip hashes := (List.mem_insertionSort entryLE).mp he
    have hfst : e.1 ∈ paths := (List.of_mem_zip he2).1
    exact ⟨e.1, hfst, hxe⟩
  have hd : ∀ a b s, SyncPathM.acct a ∈ (sortByAccountPath paths hashes).2.2.1 →
      SyncPathM.stor b s ∈ (sortByAccountPath paths hashes).2.2.1 → a ≠ b := by
    intro a b s ha hb
    rcases hmemsps _ ha with ⟨p, hpmem, hpa⟩
    rcases hmemsps _ hb with ⟨q, hqmem, hqb⟩
    rcases newSyncPath_acct_inv p a hpa with ⟨hplen, hpa2⟩
    rcases newSyncPath_stor_inv q b s hqb with ⟨hqlen, hqb2⟩
    rw [hpa2, hqb2]
    exact hdisj p hpmem q hqmem hplen hqlen
  have hmergeInv := mergePathSets_unmerge _ hd
  refine ⟨?_, ?_, ?_, ?_, ?_⟩
  · rw [hzip]
    exact List.perm_insertionSort entryLE (paths.zip hashes)
  · rw [hzip]
    exact List.sorted_insertionSort entryLE (paths.zip hashes)
  · show (List.insertionSort entryLE (paths.zip hashes)).map (fun e => newSyncPath e.1) =
      ((List.insertionSort entryLE (paths.zip hashes)).map Prod.fst).map newSyncPath
    rw [List.map_map]
    rfl
  · exact hmergeInv.1
  · intro set hset
    rcases hmergeInv.2 set hset with ⟨c, hc1, _⟩ | ⟨c, u, rest2, hc1, _⟩
    · rw [hc1]
      simp
    · rw [hc1]
      simp

def demoPaths : List (List Nat) :=
  [[1, 2], List.replicate 64 0 ++ [3], List.replicate 64 0 ++ [4]]

def demoHashes : List Nat := [10, 20, 30]

/-- C7 witness: the amended contract applied to one account-node path and
two storage-node paths of the same account. -/
theorem c7_sortByAccountPath_amended_witness :
    unmergePathSets (sortByAccountPath demoPaths demoHashes).2.2.2 =
      (sortByAccountPath demoPaths demoHashes).2.2.1 :=
  (c7_sortByAccountPath_amended demoPaths demoHashes (by decide) (by decide)
    (by decide)).2.2.2.1

end StagedStreamSync
